import Mathlib

/-!
# YCSB-cpp storage adapters (TreeLine, LSM2LIX): record codec, key mapping, lifecycle

A shallow embedding of `src/treeline/treeline_db.cc` and `src/lsm2lix/lsm2lix_db.cc`.

* A `std::string` is a list of bytes (`Bytes`); `size()` is its length, a `size_t`.
* A `uint32_t` is a natural number reduced modulo `2 ^ 32`; its object representation is
  the 4 bytes in the platform's byte order, which is a parameter (`Endian`).
* A read cursor `p` with limit `lim` is the list of the bytes from `p` up to `lim`; `p == lim`
  is the empty list and `p += n` drops `n` bytes.  A read that would leave the buffer is not
  defined by the language; it is the outcome `Fault.outOfBounds`.
* `assert` is translated as written: a failed assertion is the outcome `Fault.assertion`.
* A thrown `utils::Exception` is the outcome `Fault.exception`.
-/

namespace ycsbc

/-- One `char` of a `std::string`. -/
abbrev Byte := Fin 256

/-- A `std::string`, seen as a byte string. -/
abbrev Bytes := List Byte

/-- Byte order of the platform. -/
inductive Endian
  | little
  | big
  deriving DecidableEq, Repr

/-- Ways in which a call does not return normally. -/
inductive Fault
  /-- An `assert(...)` that does not hold. -/
  | assertion
  /-- A thrown `utils::Exception`. -/
  | exception
  /-- A read outside the buffer or character array it starts in. -/
  | outOfBounds
  /-- A member call through `db_` while it is `nullptr`. -/
  | nullHandle
  /-- A member call through, or a second `delete` of, a `db_` that was deleted. -/
  | danglingHandle
  /-- Signed overflow of the `int` reference count. -/
  | intOverflow
  /-- The loop bound of the embedding was used up (never the case, see `DeserializeRow_total`). -/
  | fuel
  deriving DecidableEq, Repr

/-- Result of a call: a value, or a fault. -/
inductive Outcome (α : Type)
  | ok (a : α)
  | fault (f : Fault)
  deriving DecidableEq, Repr

/-- The byte `n mod 256`. -/
def byteOf (n : Nat) : Byte := ⟨n % 256, Nat.mod_lt _ (by decide)⟩

/-- The `w` low-order bytes of `n`, least significant first. -/
def leBytes : Nat → Nat → Bytes
  | 0, _ => []
  | w + 1, n => byteOf n :: leBytes w (n / 256)

/-- The number whose bytes, least significant first, are `bs`. -/
def leValue : Bytes → Nat
  | [] => 0
  | b :: bs => b.val + 256 * leValue bs

/-- Object representation of a `w`-byte unsigned integer in the platform's byte order. -/
def objectBytes (e : Endian) (w n : Nat) : Bytes :=
  match e with
  | .little => leBytes w n
  | .big => (leBytes w n).reverse

/-- The unsigned integer whose object representation, in the platform's byte order, is `bs`. -/
def objectValue (e : Endian) (bs : Bytes) : Nat :=
  match e with
  | .little => leValue bs
  | .big => leValue bs.reverse

/-- The expression `*reinterpret_cast<const uint32_t *>(p)` followed by `p += sizeof(uint32_t)`:
the value read and the advanced cursor.  Fewer than 4 bytes before `lim` is a read outside
the buffer. -/
def readU32 (e : Endian) (p : Bytes) : Outcome (Nat × Bytes) :=
  if 4 ≤ p.length then .ok (objectValue e (p.take 4), p.drop 4) else .fault .outOfBounds

/-- The declaration `std::string s(p, len)` followed by `p += len`: the string copied and the
advanced cursor.  Fewer than `len` bytes before `lim` is a read outside the buffer. -/
def readString (p : Bytes) (len : Nat) : Outcome (Bytes × Bytes) :=
  if len ≤ p.length then .ok (p.take len, p.drop len) else .fault .outOfBounds

/-- Modelled from the spec: the type `DB::Field` of `core/db.h`, which is not among the sources;
a field is a name and a value, both byte strings. -/
structure Field where
  name : Bytes
  value : Bytes
  deriving DecidableEq, Repr

namespace TreeLineDB

/-- The function `TreeLineDB::SerializeRow(values, data)`: the content of `data` on return. -/
def SerializeRow (e : Endian) : List Field → Bytes → Bytes
  | [], data => data
  | field :: rest, data =>
    let len := field.name.length % 2 ^ 32
    let data := data ++ objectBytes e 4 len
    let data := data ++ field.name
    let len := field.value.length % 2 ^ 32
    let data := data ++ objectBytes e 4 len
    let data := data ++ field.value
    SerializeRow e rest data

/-- The loop of `TreeLineDB::DeserializeRow(values, p, lim)`; `fuel` bounds the number of
iterations. -/
def DeserializeRowLoop (e : Endian) : Nat → List Field → Bytes → Outcome (List Field)
  | 0, values, p => if p = [] then .ok values else .fault .fuel
  | fuel + 1, values, p =>
    if p = [] then .ok values
    else if ¬ 0 < p.length then .fault .assertion
    else
      match readU32 e p with
      | .fault f => .fault f
      | .ok (len, p) =>
        match readString p len with
        | .fault f => .fault f
        | .ok (field, p) =>
          match readU32 e p with
          | .fault f => .fault f
          | .ok (len, p) =>
            match readString p len with
            | .fault f => .fault f
            | .ok (value, p) => DeserializeRowLoop e fuel (values ++ [⟨field, value⟩]) p

/-- The function `TreeLineDB::DeserializeRow(values, data)`: the content of `values` on return. -/
def DeserializeRow (e : Endian) (values : List Field) (data : Bytes) : Outcome (List Field) :=
  DeserializeRowLoop e data.length values data

/-- The loop of `TreeLineDB::DeserializeRowFilter(values, p, lim, fields)`; `filter_iter` is
the part of `fields` from the iterator to `fields.end()`; `fuel` bounds the number of
iterations. -/
def DeserializeRowFilterLoop (e : Endian) :
    Nat → List Field → Bytes → List Bytes → Outcome (List Field)
  | 0, values, p, filter_iter =>
    if p = [] then .ok values
    else match filter_iter with
      | [] => .ok values
      | _ :: _ => .fault .fuel
  | fuel + 1, values, p, filter_iter =>
    if p = [] then .ok values
    else match filter_iter with
      | [] => .ok values
      | wanted :: more =>
        if ¬ 0 < p.length then .fault .assertion
        else
          match readU32 e p with
          | .fault f => .fault f
          | .ok (len, p) =>
            match readString p len with
            | .fault f => .fault f
            | .ok (field, p) =>
              match readU32 e p with
              | .fault f => .fault f
              | .ok (len, p) =>
                match readString p len with
                | .fault f => .fault f
                | .ok (value, p) =>
                  if wanted = field then
                    DeserializeRowFilterLoop e fuel (values ++ [⟨field, value⟩]) p more
                  else
                    DeserializeRowFilterLoop e fuel values p (wanted :: more)

/-- The function `TreeLineDB::DeserializeRowFilter(values, data, fields)`: the content of
`values` on return; the final `assert(values.size() == fields.size())` included. -/
def DeserializeRowFilter (e : Endian) (values : List Field) (data : Bytes)
    (fields : List Bytes) : Outcome (List Field) :=
  match DeserializeRowFilterLoop e data.length values data fields with
  | .fault f => .fault f
  | .ok values => if values.length = fields.length then .ok values else .fault .assertion

end TreeLineDB

namespace LSM2LIXDB

/-- The function `LSM2LIXDB::SerializeRow(values, data)`: the content of `data` on return. -/
def SerializeRow (e : Endian) : List Field → Bytes → Bytes
  | [], data => data
  | field :: rest, data =>
    let len := field.name.length % 2 ^ 32
    let data := data ++ objectBytes e 4 len
    let data := data ++ field.name
    let len := field.value.length % 2 ^ 32
    let data := data ++ objectBytes e 4 len
    let data := data ++ field.value
    SerializeRow e rest data

/-- The loop of `LSM2LIXDB::DeserializeRowFilter(values, p, lim, fields)`; `filter_iter` is
the part of `fields` from the iterator to `fields.end()`; `fuel` bounds the number of
iterations. -/
def DeserializeRowFilterLoop (e : Endian) :
    Nat → List Field → Bytes → List Bytes → Outcome (List Field)
  | 0, values, p, filter_iter =>
    if p = [] then .ok values
    else match filter_iter with
      | [] => .ok values
      | _ :: _ => .fault .fuel
  | fuel + 1, values, p, filter_iter =>
    if p = [] then .ok values
    else match filter_iter with
      | [] => .ok values
      | wanted :: more =>
        if ¬ 0 < p.length then .fault .assertion
        else
          match readU32 e p with
          | .fault f => .fault f
          | .ok (len, p) =>
            match readString p len with
            | .fault f => .fault f
            | .ok (field, p) =>
              match readU32 e p with
              | .fault f => .fault f
              | .ok (len, p) =>
                match readString p len with
                | .fault f => .fault f
                | .ok (value, p) =>
                  if wanted = field then
                    DeserializeRowFilterLoop e fuel (values ++ [⟨field, value⟩]) p more
                  else
                    DeserializeRowFilterLoop e fuel values p (wanted :: more)

/-- The function `LSM2LIXDB::DeserializeRowFilter(values, data, fields)`: the content of
`values` on return; the final `assert(values.size() == fields.size())` included. -/
def DeserializeRowFilter (e : Endian) (values : List Field) (data : Bytes)
    (fields : List Bytes) : Outcome (List Field) :=
  match DeserializeRowFilterLoop e data.length values data fields with
  | .fault f => .fault f
  | .ok values => if values.length = fields.length then .ok values else .fault .assertion

/-- The loop of `LSM2LIXDB::DeserializeRow(values, p, lim)`; `fuel` bounds the number of
iterations. -/
def DeserializeRowLoop (e : Endian) : Nat → List Field → Bytes → Outcome (List Field)
  | 0, values, p => if p = [] then .ok values else .fault .fuel
  | fuel + 1, values, p =>
    if p = [] then .ok values
    else if ¬ 0 < p.length then .fault .assertion
    else
      match readU32 e p with
      | .fault f => .fault f
      | .ok (len, p) =>
        match readString p len with
        | .fault f => .fault f
        | .ok (field, p) =>
          match readU32 e p with
          | .fault f => .fault f
          | .ok (len, p) =>
            match readString p len with
            | .fault f => .fault f
            | .ok (value, p) => DeserializeRowLoop e fuel (values ++ [⟨field, value⟩]) p

/-- The function `LSM2LIXDB::DeserializeRow(values, data)`: the content of `values` on return. -/
def DeserializeRow (e : Endian) (values : List Field) (data : Bytes) : Outcome (List Field) :=
  DeserializeRowLoop e data.length values data

end LSM2LIXDB

/-- The wire record format in the words of the specification: the concatenation, one tuple per
field in order, of a 4-byte unsigned name length, the name bytes, a 4-byte unsigned value
length and the value bytes; nothing else. -/
def wireRecord (e : Endian) (row : List Field) : Bytes :=
  (row.map fun f =>
    objectBytes e 4 f.name.length ++ f.name ++ (objectBytes e 4 f.value.length ++ f.value)).flatten

/-- Modelled from the spec: the enumeration `DB::Status` of `core/db.h`, which is not among the
sources; these are the two values the adapters return. -/
inductive Status
  | kOK
  | kNotFound
  deriving DecidableEq, Repr

/-- Status of a backend call (`tl::Status`, `LSM2LIX::Status`): `ok()` holds, or `IsNotFound()`
holds, or neither. -/
inductive BackendStatus
  | ok
  | notFound
  | failure
  deriving DecidableEq, Repr

/-- The type `tl::pg::WriteOptions`, as far as the adapter sets it. -/
structure WriteOptions where
  is_update : Bool
  deriving DecidableEq, Repr

/-- The external class `tl::pg::PageGroupedDB`, as far as the adapter calls it, over an object
state `σ`.  `Get` gives the status and the content of `*value_out`; `GetRange` the status and
the content of `*results_out`. -/
structure PageGroupedDB (σ : Type) where
  Get : σ → Nat → BackendStatus × Bytes
  GetRange : σ → Nat → Int → BackendStatus × List (Nat × Bytes)
  Put : σ → WriteOptions → Nat → Bytes → BackendStatus × σ
  BulkLoad : σ → List (Nat × Bytes) → BackendStatus × σ

/-- The external class `LSM2LIX::LSM2LIX`, as far as the adapter calls it, over an object state
`σ`. -/
structure LSM2LIX (σ : Type) where
  Get : σ → Bytes → BackendStatus × Bytes
  Put : σ → Bytes → Bytes → BackendStatus × σ

/-- The static pointer `db_`: `nullptr`, a pointer to an open backend object, or a pointer whose
object was deleted. -/
inductive Handle (σ : Type)
  | null
  | live (db : σ)
  | deleted
  deriving DecidableEq, Repr

/-- The pointer refers to an open backend object. -/
def Handle.isLive {σ : Type} : Handle σ → Bool
  | .live _ => true
  | _ => false

/-- The static members `db_` and `ref_cnt_` of an adapter class, with two counters of what
happened to the backend: `opens` counts the calls of the backend's `Open`, `closes` counts the
deletions of an open backend object. -/
structure Shared (σ : Type) where
  db_ : Handle σ
  ref_cnt_ : Int
  opens : Nat
  closes : Nat
  deriving DecidableEq, Repr

/-- The static initialisers: `db_ = nullptr`, `ref_cnt_ = 0`; nothing opened or closed yet. -/
def Shared.initial {σ : Type} : Shared σ := ⟨.null, 0, 0, 0⟩

/-- Modelled from the spec: the configuration (`utils::Properties` of `core/properties.h`, not
among the sources) as `Init` reads it, defaults applied: `treeline.format`, the result of
`std::stoi` on the field count property (`none` when `std::stoi` throws), `treeline.dbname` and
`treeline.destroy`. -/
structure Props where
  format : String
  fieldcount : Option Int
  dbname : String
  destroy : String
  deriving DecidableEq, Repr

/-- What the outside world answers to one `Init` call that reaches the backend's `Open`: the
object `Open` creates (`none` when `Open` reports a failure and leaves `db_` null), and whether
the database directory is found empty or missing. -/
structure OpenEnv (σ : Type) where
  opened : Option σ
  empty : Bool
  deriving DecidableEq, Repr

/-- The largest `int`. -/
def INT_MAX : Int := 2 ^ 31 - 1

/-- The smallest `int`. -/
def INT_MIN : Int := -(2 ^ 31)

/-- The conversion `static_cast<size_t>(fieldcount_)` of an `int` to a 64-bit `size_t`. -/
def toSizeT (n : Int) : Nat := (n % 2 ^ 64).toNat

namespace TreeLineDB

/-- The expression `key.c_str()[i]`: the character array of `key` is its bytes followed by a
terminating zero; an index beyond the terminator is a read outside the array. -/
def c_str (key : Bytes) (i : Nat) : Outcome Byte :=
  match (key ++ [0])[i]? with
  | some c => .ok c
  | none => .fault .outOfBounds

/-- The loop `for (int i = 0; i < 8; i++) c.key_char[i] = key.c_str()[i];` with `n` iterations
left at index `i`; `key_char` holds the characters written so far. -/
def convertLoop (key : Bytes) : Nat → Nat → Bytes → Outcome Bytes
  | 0, _, key_char => .ok key_char
  | n + 1, i, key_char =>
    match c_str key i with
    | .fault f => .fault f
    | .ok c => convertLoop key n (i + 1) (key_char ++ [c])

/-- The union `convert` as the operations use it: `key_char` is filled from the key by the loop
and the result is read through `key_num`, a `uint64_t`. -/
def convert (e : Endian) (key : Bytes) : Outcome Nat :=
  match convertLoop key 8 0 [] with
  | .fault f => .fault f
  | .ok key_char => .ok (objectValue e key_char)

/-- The records `TreeLineDB::Init` bulk-loads into an empty database: for `i` from `1` to
`1024*1024 - 2` the key `i*16*1024*1024*1024*1024` (a `uint64_t`) with 24 characters `'0'`.
The `tl::Slice` of a record refers to a temporary `std::string`; its content is taken to be
those 24 characters. -/
def bulkRecords : List (Nat × Bytes) :=
  (List.range' 1 (1024 * 1024 - 2)).map fun i =>
    (i * 16 * 1024 * 1024 * 1024 * 1024 % 2 ^ 64, List.replicate 24 (48 : Byte))

/-- The function `TreeLineDB::Init()`: the static members on return, and the `fieldcount_` of
the instance when the call returns normally. The statistics calls are left out. -/
def Init {σ : Type} (B : PageGroupedDB σ) (props : Props) (env : OpenEnv σ) (s : Shared σ) :
    Shared σ × Outcome Int :=
  if props.format ≠ "single" then (s, .fault .exception)
  else
    match props.fieldcount with
    | none => (s, .fault .exception)
    | some fieldcount_ =>
      if s.ref_cnt_ = INT_MAX then (s, .fault .intOverflow)
      else
        let s := { s with ref_cnt_ := s.ref_cnt_ + 1 }
        match s.db_ with
        | .live _ => (s, .ok fieldcount_)
        | .deleted => (s, .ok fieldcount_)
        | .null =>
          if props.dbname = "" then (s, .fault .exception)
          else
            -- `delete db_` under `treeline.destroy`: `db_` is null here, nothing happens
            let s := { s with opens := s.opens + 1 }
            match env.opened with
            | none =>
              if env.empty then (s, .fault .nullHandle)
              else (s, .fault .exception)
            | some db =>
              if env.empty then
                match B.BulkLoad db bulkRecords with
                | (status, db) =>
                  if status ≠ .ok then ({ s with db_ := .live db }, .fault .exception)
                  else ({ s with db_ := .live db }, .ok fieldcount_)
              else ({ s with db_ := .live db }, .ok fieldcount_)

/-- The function `TreeLineDB::Cleanup()`: the static members on return. The statistics output is
left out. -/
def Cleanup {σ : Type} (s : Shared σ) : Shared σ × Outcome Unit :=
  if s.ref_cnt_ = INT_MIN then (s, .fault .intOverflow)
  else
    let s := { s with ref_cnt_ := s.ref_cnt_ - 1 }
    if s.ref_cnt_ ≠ 0 then (s, .ok ())
    else
      match s.db_ with
      | .null => (s, .ok ())
      | .live _ => ({ s with db_ := .deleted, closes := s.closes + 1 }, .ok ())
      | .deleted => (s, .fault .danglingHandle)

/-- The function `TreeLineDB::ReadSingle(table, key, fields, result)`: the status returned and
the content of `result`. -/
def ReadSingle {σ : Type} (B : PageGroupedDB σ) (e : Endian) (fieldcount_ : Int)
    (db_ : Handle σ) (_table key : Bytes) (fields : Option (List Bytes))
    (result : List Field) : Outcome (Status × List Field) :=
  match convert e key with
  | .fault f => .fault f
  | .ok key_num =>
    match db_ with
    | .null => .fault .nullHandle
    | .deleted => .fault .danglingHandle
    | .live db =>
      match B.Get db key_num with
      | (s, data) =>
        if s = .notFound then .ok (.kNotFound, result)
        else if s ≠ .ok then .fault .exception
        else
          match fields with
          | some fields =>
            match DeserializeRowFilter e result data fields with
            | .fault f => .fault f
            | .ok result => .ok (.kOK, result)
          | none =>
            match DeserializeRow e result data with
            | .fault f => .fault f
            | .ok result =>
              if result.length = toSizeT fieldcount_ then .ok (.kOK, result)
              else .fault .assertion

/-- The loop of `TreeLineDB::ScanSingle` over `scan_out`. -/
def ScanSingleLoop (e : Endian) (fieldcount_ : Int) (fields : Option (List Bytes)) :
    List (Nat × Bytes) → List (List Field) → Outcome (List (List Field))
  | [], result => .ok result
  | record :: more, result =>
    let data := record.2
    match fields with
    | some fields =>
      match DeserializeRowFilter e [] data fields with
      | .fault f => .fault f
      | .ok values => ScanSingleLoop e fieldcount_ (some fields) more (result ++ [values])
    | none =>
      match DeserializeRow e [] data with
      | .fault f => .fault f
      | .ok values =>
        if values.length = toSizeT fieldcount_ then
          ScanSingleLoop e fieldcount_ none more (result ++ [values])
        else .fault .assertion

/-- The function `TreeLineDB::ScanSingle(table, key, len, fields, result)`: the status returned
and the content of `result`. -/
def ScanSingle {σ : Type} (B : PageGroupedDB σ) (e : Endian) (fieldcount_ : Int)
    (db_ : Handle σ) (_table key : Bytes) (len : Int) (fields : Option (List Bytes))
    (result : List (List Field)) : Outcome (Status × List (List Field)) :=
  match convert e key with
  | .fault f => .fault f
  | .ok key_num =>
    match db_ with
    | .null => .fault .nullHandle
    | .deleted => .fault .danglingHandle
    | .live db =>
      match B.GetRange db key_num len with
      | (_status, scan_out) =>
        match ScanSingleLoop e fieldcount_ fields scan_out result with
        | .fault f => .fault f
        | .ok result => .ok (.kOK, result)

/-- The function `TreeLineDB::UpdateSingle(table, key, values)`: the status returned and `db_`
with the backend object as the call leaves it. -/
def UpdateSingle {σ : Type} (B : PageGroupedDB σ) (e : Endian) (db_ : Handle σ)
    (_table key : Bytes) (values : List Field) : Outcome (Status × Handle σ) :=
  match convert e key with
  | .fault f => .fault f
  | .ok key_num =>
    let write_options : WriteOptions := ⟨true⟩
    let data := SerializeRow e values []
    match db_ with
    | .null => .fault .nullHandle
    | .deleted => .fault .danglingHandle
    | .live db =>
      match B.Put db write_options key_num data with
      | (s, db) => if s ≠ .ok then .fault .exception else .ok (.kOK, .live db)

/-- The function `TreeLineDB::InsertSingle(table, key, values)`: the status returned and `db_`
with the backend object as the call leaves it. -/
def InsertSingle {σ : Type} (B : PageGroupedDB σ) (e : Endian) (db_ : Handle σ)
    (_table key : Bytes) (values : List Field) : Outcome (Status × Handle σ) :=
  match convert e key with
  | .fault f => .fault f
  | .ok key_num =>
    let data := SerializeRow e values []
    let write_options : WriteOptions := ⟨false⟩
    match db_ with
    | .null => .fault .nullHandle
    | .deleted => .fault .danglingHandle
    | .live db =>
      match B.Put db write_options key_num data with
      | (s, db) => if s ≠ .ok then .fault .exception else .ok (.kOK, .live db)

/-- The function `TreeLineDB::DeleteSingle(table, key)`: the status returned and `db_`, which
the call does not use. -/
def DeleteSingle {σ : Type} (db_ : Handle σ) (_table _key : Bytes) :
    Outcome (Status × Handle σ) :=
  .ok (.kOK, db_)

end TreeLineDB

namespace LSM2LIXDB

/-- The function `LSM2LIXDB::Init()`: the static members on return, and the `fieldcount_` of the
instance when the call returns normally. -/
def Init {σ : Type} (props : Props) (env : OpenEnv σ) (s : Shared σ) :
    Shared σ × Outcome Int :=
  match props.fieldcount with
  | none => (s, .fault .exception)
  | some fieldcount_ =>
    if s.ref_cnt_ = INT_MAX then (s, .fault .intOverflow)
    else
      let s := { s with ref_cnt_ := s.ref_cnt_ + 1 }
      match s.db_ with
      | .live _ => (s, .ok fieldcount_)
      | .deleted => (s, .ok fieldcount_)
      | .null =>
        let s := { s with opens := s.opens + 1 }
        match env.opened with
        | none => (s, .fault .exception)
        | some db => ({ s with db_ := .live db }, .ok fieldcount_)

/-- The function `LSM2LIXDB::Cleanup()`: the static members on return. -/
def Cleanup {σ : Type} (s : Shared σ) : Shared σ × Outcome Unit :=
  if s.ref_cnt_ = INT_MIN then (s, .fault .intOverflow)
  else
    let s := { s with ref_cnt_ := s.ref_cnt_ - 1 }
    if s.ref_cnt_ ≠ 0 then (s, .ok ())
    else
      match s.db_ with
      | .null => (s, .ok ())
      | .live _ => ({ s with db_ := .deleted, closes := s.closes + 1 }, .ok ())
      | .deleted => (s, .fault .danglingHandle)

/-- The function `LSM2LIXDB::ReadSingle(table, key, fields, result)`: the status returned and
the content of `result`. -/
def ReadSingle {σ : Type} (B : LSM2LIX σ) (e : Endian) (fieldcount_ : Int)
    (db_ : Handle σ) (_table key : Bytes) (fields : Option (List Bytes))
    (result : List Field) : Outcome (Status × List Field) :=
  match db_ with
  | .null => .fault .nullHandle
  | .deleted => .fault .danglingHandle
  | .live db =>
    match B.Get db key with
    | (s, data) =>
      if s = .notFound then .ok (.kNotFound, result)
      else if s ≠ .ok then .fault .exception
      else
        match fields with
        | some fields =>
          match DeserializeRowFilter e result data fields with
          | .fault f => .fault f
          | .ok result => .ok (.kOK, result)
        | none =>
          match DeserializeRow e result data with
          | .fault f => .fault f
          | .ok result =>
            if result.length = toSizeT fieldcount_ then .ok (.kOK, result)
            else .fault .assertion

/-- The function `LSM2LIXDB::ScanSingle(table, key, len, fields, result)`: the status returned
and the content of `result`. -/
def ScanSingle (_table _key : Bytes) (_len : Int) (_fields : Option (List Bytes))
    (result : List (List Field)) : Outcome (Status × List (List Field)) :=
  .ok (.kOK, result)

/-- The function `LSM2LIXDB::UpdateSingle(table, key, values)`: the status returned and `db_`,
which the call does not use. -/
def UpdateSingle {σ : Type} (db_ : Handle σ) (_table _key : Bytes) (_values : List Field) :
    Outcome (Status × Handle σ) :=
  .ok (.kOK, db_)

/-- The function `LSM2LIXDB::InsertSingle(table, key, values)`: the status returned and `db_`
with the backend object as the call leaves it. -/
def InsertSingle {σ : Type} (B : LSM2LIX σ) (e : Endian) (db_ : Handle σ)
    (_table key : Bytes) (values : List Field) : Outcome (Status × Handle σ) :=
  let data := SerializeRow e values []
  match db_ with
  | .null => .fault .nullHandle
  | .deleted => .fault .danglingHandle
  | .live db =>
    match B.Put db key data with
    | (s, db) => if s ≠ .ok then .fault .exception else .ok (.kOK, .live db)

/-- The function `LSM2LIXDB::DeleteSingle(table, key)`: the status returned and `db_`, which the
call does not use. -/
def DeleteSingle {σ : Type} (db_ : Handle σ) (_table _key : Bytes) :
    Outcome (Status × Handle σ) :=
  .ok (.kOK, db_)

end LSM2LIXDB

/-! ## Backends modelled as key-to-bytes maps -/

/-- A key-to-bytes map: an association list with at most one entry per key. -/
abbrev MapStore (κ : Type) := List (κ × Bytes)

/-- The entry of the key, with the status of a `Get`. -/
def MapStore.get {κ : Type} [DecidableEq κ] (m : MapStore κ) (k : κ) : BackendStatus × Bytes :=
  match m.lookup k with
  | some v => (.ok, v)
  | none => (.notFound, [])

/-- The map after a `Put`: the entry of the key is replaced. -/
def MapStore.put {κ : Type} [DecidableEq κ] (m : MapStore κ) (k : κ) (v : Bytes) : MapStore κ :=
  (k, v) :: m.filter fun kv => kv.1 ≠ k

/-- The first `count` entries with a key of at least `start`, by increasing key. -/
def MapStore.range (m : MapStore Nat) (start : Nat) (count : Int) : List (Nat × Bytes) :=
  ((m.filter fun kv => start ≤ kv.1).insertionSort fun a b => a.1 ≤ b.1).take count.toNat

/-- A `tl::pg::PageGroupedDB` that is a key-to-bytes map and never fails. -/
def mapPageGroupedDB : PageGroupedDB (MapStore Nat) where
  Get := fun m k => m.get k
  GetRange := fun m start count => (.ok, m.range start count)
  Put := fun m _ k v => (.ok, m.put k v)
  BulkLoad := fun m records => (.ok, records.foldl (fun m r => m.put r.1 r.2) m)

/-- An `LSM2LIX::LSM2LIX` that is a key-to-bytes map and never fails. -/
def mapLSM2LIX : LSM2LIX (MapStore Bytes) where
  Get := fun m k => m.get k
  Put := fun m k v => (.ok, m.put k v)

/-! ## Notions used to state the properties -/

/-- Every name and every value of the row is shorter than `2 ^ 32` bytes, the range of the
4-byte length. -/
def Row.Bounded (row : List Field) : Prop :=
  ∀ f ∈ row, f.name.length < 2 ^ 32 ∧ f.value.length < 2 ^ 32

/-- The fields a linear merge of the row with the filter list keeps: a field is kept, and the
filter advances, when its name is the next filter name. -/
def mergeKept : List Field → List Bytes → List Field
  | [], _ => []
  | _ :: _, [] => []
  | f :: row, wanted :: more =>
    if wanted = f.name then f :: mergeKept row more else mergeKept row (wanted :: more)

/-- The filter names a linear merge of the row with the filter list leaves unmatched. -/
def mergeLeft : List Field → List Bytes → List Bytes
  | [], filter => filter
  | _ :: _, [] => []
  | f :: row, wanted :: more =>
    if wanted = f.name then mergeLeft row more else mergeLeft row (wanted :: more)

namespace TreeLineDB

/-- Serialised `TreeLineDB::Init` calls, one per list entry: the static members after the last
one, and whether every call returned normally. -/
def InitAll {σ : Type} (B : PageGroupedDB σ) :
    List (Props × OpenEnv σ) → Shared σ → Shared σ × Bool
  | [], s => (s, true)
  | c :: cs, s =>
    match Init B c.1 c.2 s with
    | (s, .ok _) => InitAll B cs s
    | (s, .fault _) => (s, false)

/-- Serialised `TreeLineDB::Cleanup` calls: the static members after the last one, and whether
every call returned normally. -/
def CleanupAll {σ : Type} : Nat → Shared σ → Shared σ × Bool
  | 0, s => (s, true)
  | n + 1, s =>
    match Cleanup s with
    | (s, .ok _) => CleanupAll n s
    | (s, .fault _) => (s, false)

end TreeLineDB

namespace LSM2LIXDB

/-- Serialised `LSM2LIXDB::Init` calls, one per list entry: the static members after the last
one, and whether every call returned normally. -/
def InitAll {σ : Type} : List (Props × OpenEnv σ) → Shared σ → Shared σ × Bool
  | [], s => (s, true)
  | c :: cs, s =>
    match Init c.1 c.2 s with
    | (s, .ok _) => InitAll cs s
    | (s, .fault _) => (s, false)

/-- Serialised `LSM2LIXDB::Cleanup` calls: the static members after the last one, and whether
every call returned normally. -/
def CleanupAll {σ : Type} : Nat → Shared σ → Shared σ × Bool
  | 0, s => (s, true)
  | n + 1, s =>
    match Cleanup s with
    | (s, .ok _) => CleanupAll n s
    | (s, .fault _) => (s, false)

end LSM2LIXDB

namespace TreeLineDB

/-- The call of `InsertSingle` followed, when it returns, by `ReadSingle` without a filter on
the same key into an empty `result`: what the read returns. -/
def InsertThenRead {σ : Type} (B : PageGroupedDB σ) (e : Endian) (fieldcount_ : Int)
    (db_ : Handle σ) (table key : Bytes) (values : List Field) :
    Outcome (Status × List Field) :=
  match InsertSingle B e db_ table key values with
  | .fault f => .fault f
  | .ok (_, db_) => ReadSingle B e fieldcount_ db_ table key none []

/-- The call of `InsertSingle` followed, when it returns, by `DeleteSingle` of the same key and
then by `ReadSingle` without a filter on the same key into an empty `result`: the status of the
delete, and the status and the row of the read. -/
def InsertDeleteRead {σ : Type} (B : PageGroupedDB σ) (e : Endian) (fieldcount_ : Int)
    (db_ : Handle σ) (table key : Bytes) (values : List Field) :
    Outcome (Status × Status × List Field) :=
  match InsertSingle B e db_ table key values with
  | .fault f => .fault f
  | .ok (_, db_) =>
    match DeleteSingle db_ table key with
    | .fault f => .fault f
    | .ok (deleted, db_) =>
      match ReadSingle B e fieldcount_ db_ table key none [] with
      | .fault f => .fault f
      | .ok (read, result) => .ok (deleted, read, result)

/-- Three instances whose `Init` calls are serialised in this order; the database directory
holds data already. -/
def threeCalls : List (Props × OpenEnv (MapStore Nat)) :=
  [(⟨"single", some 2, "/tmp/ycsb-treelinedb", "false"⟩, ⟨some [], false⟩),
   (⟨"single", some 2, "/tmp/ycsb-treelinedb", "false"⟩, ⟨none, false⟩),
   (⟨"single", some 10, "", "true"⟩, ⟨none, true⟩)]

end TreeLineDB

namespace LSM2LIXDB

/-- The call of `InsertSingle` followed, when it returns, by `ReadSingle` without a filter on
the same key into an empty `result`: what the read returns. -/
def InsertThenRead {σ : Type} (B : LSM2LIX σ) (e : Endian) (fieldcount_ : Int)
    (db_ : Handle σ) (table key : Bytes) (values : List Field) :
    Outcome (Status × List Field) :=
  match InsertSingle B e db_ table key values with
  | .fault f => .fault f
  | .ok (_, db_) => ReadSingle B e fieldcount_ db_ table key none []

/-- The call of `InsertSingle` followed, when it returns, by `DeleteSingle` of the same key and
then by `ReadSingle` without a filter on the same key into an empty `result`: the status of the
delete, and the status and the row of the read. -/
def InsertDeleteRead {σ : Type} (B : LSM2LIX σ) (e : Endian) (fieldcount_ : Int)
    (db_ : Handle σ) (table key : Bytes) (values : List Field) :
    Outcome (Status × Status × List Field) :=
  match InsertSingle B e db_ table key values with
  | .fault f => .fault f
  | .ok (_, db_) =>
    match DeleteSingle db_ table key with
    | .fault f => .fault f
    | .ok (deleted, db_) =>
      match ReadSingle B e fieldcount_ db_ table key none [] with
      | .fault f => .fault f
      | .ok (read, result) => .ok (deleted, read, result)

/-- Two instances whose `Init` calls are serialised in this order. -/
def twoCalls : List (Props × OpenEnv (MapStore Bytes)) :=
  [(⟨"", some 2, "", ""⟩, ⟨some [], false⟩), (⟨"", some 3, "", ""⟩, ⟨none, false⟩)]

end LSM2LIXDB

/-- A `tl::pg::PageGroupedDB` every call of which reports a failure other than "not found" and
hands out nothing. -/
def failingPageGroupedDB : PageGroupedDB Unit where
  Get := fun _ _ => (.failure, [])
  GetRange := fun _ _ _ => (.failure, [])
  Put := fun db _ _ _ => (.failure, db)
  BulkLoad := fun db _ => (.failure, db)

/-- An `LSM2LIX::LSM2LIX` every call of which reports a failure other than "not found" and hands
out nothing. -/
def failingLSM2LIX : LSM2LIX Unit where
  Get := fun _ _ => (.failure, [])
  Put := fun db _ _ => (.failure, db)

namespace TreeLineDB

/-- What the decode path of `ReadSingle` yields for a blob, decoded into an empty result:
`DeserializeRowFilter` with the filter when there is one, `DeserializeRow` and the assertion on
the field count otherwise. -/
def ReadDecode (e : Endian) (fieldcount_ : Int) (fields : Option (List Bytes)) (data : Bytes) :
    Outcome (List Field) :=
  match fields with
  | some fields => DeserializeRowFilter e [] data fields
  | none =>
    match DeserializeRow e [] data with
    | .fault f => .fault f
    | .ok result =>
      if result.length = toSizeT fieldcount_ then .ok result else .fault .assertion

/-- The call of `InsertSingle` followed, when it returns, by `ScanSingle` from the same key
without a filter into an empty `result`: what the scan returns. -/
def InsertThenScan {σ : Type} (B : PageGroupedDB σ) (e : Endian) (fieldcount_ : Int)
    (db_ : Handle σ) (table key : Bytes) (len : Int) (values : List Field) :
    Outcome (Status × List (List Field)) :=
  match InsertSingle B e db_ table key values with
  | .fault f => .fault f
  | .ok (_, db_) => ScanSingle B e fieldcount_ db_ table key len none []

end TreeLineDB

namespace LSM2LIXDB

/-- The call of `InsertSingle` followed, when it returns, by `ScanSingle` from the same key
without a filter into an empty `result`: what the scan returns. -/
def InsertThenScan {σ : Type} (B : LSM2LIX σ) (e : Endian) (db_ : Handle σ)
    (table key : Bytes) (len : Int) (values : List Field) :
    Outcome (Status × List (List Field)) :=
  match InsertSingle B e db_ table key values with
  | .fault f => .fault f
  | .ok (_, _) => ScanSingle table key len none []

end LSM2LIXDB

/-! ## Bytes and lengths -/

theorem length_leBytes (w n : Nat) : (leBytes w n).length = w := by
  induction w generalizing n with
  | zero => rfl
  | succ w ih => simp [leBytes, ih]

theorem length_objectBytes (e : Endian) (w n : Nat) : (objectBytes e w n).length = w := by
  cases e <;> simp [objectBytes, length_leBytes]

theorem leValue_leBytes (w n : Nat) : leValue (leBytes w n) = n % 256 ^ w := by
  induction w generalizing n with
  | zero => simp [leBytes, leValue, Nat.mod_one]
  | succ w ih =>
    simp only [leBytes, leValue, ih, byteOf]
    rw [pow_succ', Nat.mod_mul]

theorem objectValue_objectBytes (e : Endian) (w n : Nat) :
    objectValue e (objectBytes e w n) = n % 256 ^ w := by
  cases e <;> simp [objectValue, objectBytes, leValue_leBytes]

theorem leValue_lt (bs : Bytes) : leValue bs < 256 ^ bs.length := by
  induction bs with
  | nil => simp [leValue]
  | cons b bs ih =>
    simp only [leValue, List.length_cons, pow_succ']
    have := b.isLt
    nlinarith

theorem objectValue_lt (e : Endian) (bs : Bytes) : objectValue e bs < 256 ^ bs.length := by
  cases e
  · exact leValue_lt bs
  · have := leValue_lt bs.reverse
    simpa [objectValue] using this

theorem leBytes_mod (w n : Nat) : leBytes w (n % 256 ^ w) = leBytes w n := by
  induction w generalizing n with
  | zero => rfl
  | succ w ih =>
    simp only [leBytes]
    congr 1
    · apply Fin.ext
      simp only [byteOf, pow_succ']
      rw [Nat.mod_mul_right_mod]
    · rw [← ih (n / 256), pow_succ', Nat.mod_mul_right_div_self]

theorem objectBytes_mod (e : Endian) (w n : Nat) :
    objectBytes e w (n % 256 ^ w) = objectBytes e w n := by
  cases e <;> simp [objectBytes, leBytes_mod]

theorem leBytes_leValue (bs : Bytes) : leBytes bs.length (leValue bs) = bs := by
  induction bs with
  | nil => rfl
  | cons b bs ih =>
    simp only [List.length_cons, leBytes, leValue]
    have hb := b.isLt
    congr 1
    · apply Fin.ext
      simp only [byteOf, Nat.add_mul_mod_self_left]
      exact Nat.mod_eq_of_lt hb
    · have : (b.val + 256 * leValue bs) / 256 = leValue bs := by omega
      rw [this, ih]

theorem objectBytes_objectValue (e : Endian) (bs : Bytes) :
    objectBytes e bs.length (objectValue e bs) = bs := by
  cases e
  · exact leBytes_leValue bs
  · have := leBytes_leValue bs.reverse
    simp only [List.length_reverse] at this
    simp [objectBytes, objectValue, this]

/-! ## Reading from a cursor -/

theorem readU32_append (e : Endian) (n : Nat) (rest : Bytes) :
    readU32 e (objectBytes e 4 n ++ rest) = .ok (n % 2 ^ 32, rest) := by
  have hl := length_objectBytes e 4 n
  have h1 : (objectBytes e 4 n ++ rest).take 4 = objectBytes e 4 n := by
    rw [List.take_append_of_le_length (by omega), List.take_of_length_le (by omega)]
  have h2 : (objectBytes e 4 n ++ rest).drop 4 = rest := by
    rw [List.drop_append_of_le_length (by omega), List.drop_of_length_le (by omega)]
    rfl
  simp only [readU32, List.length_append, hl, h1, h2, objectValue_objectBytes]
  simp

theorem readString_append (s rest : Bytes) :
    readString (s ++ rest) s.length = .ok (s, rest) := by
  simp [readString]

theorem readU32_ok {e : Endian} {p p1 : Bytes} {len : Nat} (h : readU32 e p = .ok (len, p1)) :
    p = objectBytes e 4 len ++ p1 ∧ len < 2 ^ 32 := by
  unfold readU32 at h
  split at h
  · rename_i h4
    simp only [Outcome.ok.injEq, Prod.mk.injEq] at h
    obtain ⟨h1, h2⟩ := h
    have hl : (p.take 4).length = 4 := by simp [List.length_take]; omega
    refine ⟨?_, ?_⟩
    · have := objectBytes_objectValue e (p.take 4)
      rw [hl, h1] at this
      rw [this, ← h2, List.take_append_drop]
    · have := objectValue_lt e (p.take 4)
      rw [hl, h1] at this
      exact this
  · cases h

theorem readString_ok {p p1 s : Bytes} {len : Nat} (h : readString p len = .ok (s, p1)) :
    p = s ++ p1 ∧ s.length = len := by
  unfold readString at h
  split at h
  · rename_i hle
    simp only [Outcome.ok.injEq, Prod.mk.injEq] at h
    obtain ⟨h1, h2⟩ := h
    refine ⟨by rw [← h1, ← h2, List.take_append_drop], ?_⟩
    rw [← h1, List.length_take]
    omega
  · cases h

/-! ## The wire record -/

theorem wireRecord_nil (e : Endian) : wireRecord e [] = [] := rfl

theorem wireRecord_cons (e : Endian) (f : Field) (row : List Field) :
    wireRecord e (f :: row) =
      objectBytes e 4 f.name.length ++ (f.name ++ (objectBytes e 4 f.value.length ++
        (f.value ++ wireRecord e row))) := by
  simp [wireRecord]

theorem length_wireRecord (e : Endian) (row : List Field) :
    (wireRecord e row).length = (row.map fun f => 8 + f.name.length + f.value.length).sum := by
  induction row with
  | nil => rfl
  | cons f row ih =>
    simp only [wireRecord_cons, List.length_append, length_objectBytes, ih, List.map_cons,
      List.sum_cons]
    omega

theorem length_le_wireRecord (e : Endian) (row : List Field) :
    row.length ≤ (wireRecord e row).length := by
  induction row with
  | nil => simp
  | cons f row ih =>
    simp only [wireRecord_cons, List.length_append, length_objectBytes, List.length_cons]
    omega

theorem wireRecord_cons_ne_nil (e : Endian) (f : Field) (rest : Bytes) :
    objectBytes e 4 f.name.length ++ (f.name ++ (objectBytes e 4 f.value.length ++
      (f.value ++ rest))) ≠ [] := by
  intro h
  have := congrArg List.length h
  simp [length_objectBytes] at this

/-! ## The two adapters have the same record codec -/

namespace LSM2LIXDB

theorem SerializeRow_eq_TreeLine (e : Endian) (row : List Field) (data : Bytes) :
    SerializeRow e row data = TreeLineDB.SerializeRow e row data := by
  induction row generalizing data with
  | nil => rfl
  | cons f row ih => simp only [SerializeRow, TreeLineDB.SerializeRow, ih]

theorem DeserializeRowLoop_eq_TreeLine (e : Endian) (fuel : Nat) (values : List Field)
    (p : Bytes) :
    DeserializeRowLoop e fuel values p = TreeLineDB.DeserializeRowLoop e fuel values p := by
  induction fuel generalizing values p with
  | zero => rfl
  | succ fuel ih => simp only [DeserializeRowLoop, TreeLineDB.DeserializeRowLoop, ih]

theorem DeserializeRow_eq_TreeLine (e : Endian) (values : List Field) (data : Bytes) :
    DeserializeRow e values data = TreeLineDB.DeserializeRow e values data :=
  DeserializeRowLoop_eq_TreeLine e _ values data

theorem DeserializeRowFilterLoop_eq_TreeLine (e : Endian) (fuel : Nat) (values : List Field)
    (p : Bytes) (flt : List Bytes) :
    DeserializeRowFilterLoop e fuel values p flt =
      TreeLineDB.DeserializeRowFilterLoop e fuel values p flt := by
  induction fuel generalizing values p flt with
  | zero => rfl
  | succ fuel ih =>
    simp only [DeserializeRowFilterLoop, TreeLineDB.DeserializeRowFilterLoop, ih]

theorem DeserializeRowFilter_eq_TreeLine (e : Endian) (values : List Field) (data : Bytes)
    (fields : List Bytes) :
    DeserializeRowFilter e values data fields =
      TreeLineDB.DeserializeRowFilter e values data fields := by
  simp only [DeserializeRowFilter, TreeLineDB.DeserializeRowFilter,
    DeserializeRowFilterLoop_eq_TreeLine]

end LSM2LIXDB

/-! ## The linear merge -/

theorem length_mergeKept_add (row : List Field) (flt : List Bytes) :
    (mergeKept row flt).length + (mergeLeft row flt).length = flt.length := by
  induction row generalizing flt with
  | nil => simp [mergeKept, mergeLeft]
  | cons f row ih =>
    cases flt with
    | nil => simp [mergeKept, mergeLeft]
    | cons wanted more =>
      by_cases h : wanted = f.name
      · have := ih more
        simp only [mergeKept, mergeLeft, h, if_true, List.length_cons]
        omega
      · have := ih (wanted :: more)
        simpa only [mergeKept, mergeLeft, h, if_false, List.length_cons] using this

theorem mergeLeft_eq_nil_iff (row : List Field) (flt : List Bytes) :
    mergeLeft row flt = [] ↔ flt.Sublist (row.map Field.name) := by
  induction row generalizing flt with
  | nil => simp [mergeLeft]
  | cons f row ih =>
    cases flt with
    | nil => simp [mergeLeft]
    | cons wanted more =>
      by_cases h : wanted = f.name
      · subst h
        simp only [mergeLeft, if_true, List.map_cons, List.cons_sublist_cons]
        exact ih more
      · simp only [mergeLeft, h, if_false, List.map_cons]
        rw [ih, List.sublist_cons_iff]
        constructor
        · exact fun hs => Or.inl hs
        · rintro (hs | ⟨r, hr, -⟩)
          · exact hs
          · simp only [List.cons.injEq] at hr
            exact absurd hr.1 h

theorem length_mergeKept_eq_iff (row : List Field) (flt : List Bytes) :
    (mergeKept row flt).length = flt.length ↔ flt.Sublist (row.map Field.name) := by
  rw [← mergeLeft_eq_nil_iff]
  have := length_mergeKept_add row flt
  constructor
  · intro h
    exact List.length_eq_zero.1 (by omega)
  · intro h
    rw [h] at this
    simpa using this

theorem mergeKept_eq_filter (row : List Field) (flt : List Bytes)
    (hnd : (row.map Field.name).Nodup) (hs : flt.Sublist (row.map Field.name)) :
    mergeKept row flt = row.filter fun f => decide (f.name ∈ flt) := by
  induction row generalizing flt with
  | nil => simp [mergeKept]
  | cons f row ih =>
    simp only [List.map_cons, List.nodup_cons] at hnd
    obtain ⟨hf, hnd⟩ := hnd
    cases flt with
    | nil => simp [mergeKept]
    | cons wanted more =>
      by_cases h : wanted = f.name
      · subst h
        simp only [List.map_cons, List.cons_sublist_cons] at hs
        simp only [mergeKept, if_true, List.filter_cons, List.mem_cons, true_or, decide_True]
        rw [ih more hnd hs]
        congr 1
        apply List.filter_congr
        intro g hg
        have hne : g.name ≠ f.name := by
          intro hgw
          exact hf (hgw ▸ List.mem_map_of_mem Field.name hg)
        simp [hne]
      · simp only [List.map_cons] at hs
        rw [List.sublist_cons_iff] at hs
        have hs : (wanted :: more).Sublist (row.map Field.name) := by
          rcases hs with hs | ⟨r, hr, -⟩
          · exact hs
          · simp only [List.cons.injEq] at hr
            exact absurd hr.1 h
        have hnot : f.name ∉ wanted :: more := fun hm => hf (hs.subset hm)
        simp only [mergeKept, h, if_false, List.filter_cons, hnot, decide_False]
        simpa using ih (wanted :: more) hnd hs

namespace TreeLineDB

/-! ## The record codec of the TreeLine adapter -/

theorem SerializeRow_eq (e : Endian) (row : List Field) (data : Bytes) :
    SerializeRow e row data = data ++ wireRecord e row := by
  induction row generalizing data with
  | nil => simp [SerializeRow, wireRecord_nil]
  | cons f row ih =>
    have h : (2 : Nat) ^ 32 = 256 ^ 4 := by norm_num
    simp only [SerializeRow, ih, wireRecord_cons, h, objectBytes_mod, List.append_assoc]

theorem DeserializeRowLoop_cons (e : Endian) (fuel : Nat) (values : List Field) (f : Field)
    (rest : Bytes) (hn : f.name.length < 2 ^ 32) (hv : f.value.length < 2 ^ 32) :
    DeserializeRowLoop e (fuel + 1) values
        (objectBytes e 4 f.name.length ++ (f.name ++ (objectBytes e 4 f.value.length ++
          (f.value ++ rest)))) =
      DeserializeRowLoop e fuel (values ++ [f]) rest := by
  have hne := wireRecord_cons_ne_nil e f rest
  have hpos : 0 < (objectBytes e 4 f.name.length ++ (f.name ++
      (objectBytes e 4 f.value.length ++ (f.value ++ rest)))).length := by
    simp [length_objectBytes]
  rw [DeserializeRowLoop]
  simp only [hne, hpos, if_false, not_true_eq_false, readU32_append, Nat.mod_eq_of_lt hn,
    Nat.mod_eq_of_lt hv, readString_append]

theorem DeserializeRowLoop_wire (e : Endian) (row : List Field) (hb : Row.Bounded row)
    (fuel : Nat) (hf : row.length ≤ fuel) (values : List Field) :
    DeserializeRowLoop e fuel values (wireRecord e row) = .ok (values ++ row) := by
  induction row generalizing fuel values with
  | nil => cases fuel <;> simp [DeserializeRowLoop, wireRecord_nil]
  | cons f row ih =>
    obtain ⟨fuel, rfl⟩ : ∃ k, fuel = k + 1 := ⟨fuel - 1, by simp at hf; omega⟩
    have hfb := hb f (List.mem_cons_self _ _)
    rw [wireRecord_cons, DeserializeRowLoop_cons e fuel values f _ hfb.1 hfb.2,
      ih (fun g hg => hb g (List.mem_cons_of_mem _ hg)) fuel (by simp at hf; omega)]
    simp

theorem DeserializeRow_wire (e : Endian) (row : List Field) (hb : Row.Bounded row)
    (values : List Field) :
    DeserializeRow e values (wireRecord e row) = .ok (values ++ row) :=
  DeserializeRowLoop_wire e row hb _ (length_le_wireRecord e row) values

theorem DeserializeRowFilterLoop_cons (e : Endian) (fuel : Nat) (values : List Field)
    (f : Field) (rest : Bytes) (wanted : Bytes) (more : List Bytes)
    (hn : f.name.length < 2 ^ 32) (hv : f.value.length < 2 ^ 32) :
    DeserializeRowFilterLoop e (fuel + 1) values
        (objectBytes e 4 f.name.length ++ (f.name ++ (objectBytes e 4 f.value.length ++
          (f.value ++ rest)))) (wanted :: more) =
      if wanted = f.name then DeserializeRowFilterLoop e fuel (values ++ [f]) rest more
      else DeserializeRowFilterLoop e fuel values rest (wanted :: more) := by
  have hne := wireRecord_cons_ne_nil e f rest
  have hpos : 0 < (objectBytes e 4 f.name.length ++ (f.name ++
      (objectBytes e 4 f.value.length ++ (f.value ++ rest)))).length := by
    simp [length_objectBytes]
  rw [DeserializeRowFilterLoop]
  simp only [hne, hpos, if_false, not_true_eq_false, readU32_append, Nat.mod_eq_of_lt hn,
    Nat.mod_eq_of_lt hv, readString_append]

theorem DeserializeRowFilterLoop_wire (e : Endian) (row : List Field) (hb : Row.Bounded row)
    (fuel : Nat) (hf : row.length ≤ fuel) (values : List Field) (flt : List Bytes) :
    DeserializeRowFilterLoop e fuel values (wireRecord e row) flt =
      .ok (values ++ mergeKept row flt) := by
  induction row generalizing fuel values flt with
  | nil => cases fuel <;> simp [DeserializeRowFilterLoop, wireRecord_nil, mergeKept]
  | cons f row ih =>
    obtain ⟨fuel, rfl⟩ : ∃ k, fuel = k + 1 := ⟨fuel - 1, by simp at hf; omega⟩
    have hfb := hb f (List.mem_cons_self _ _)
    have hb2 : Row.Bounded row := fun g hg => hb g (List.mem_cons_of_mem _ hg)
    have hf2 : row.length ≤ fuel := by simp at hf; omega
    cases flt with
    | nil =>
      rw [wireRecord_cons, DeserializeRowFilterLoop]
      simp [wireRecord_cons_ne_nil, mergeKept]
    | cons wanted more =>
      rw [wireRecord_cons, DeserializeRowFilterLoop_cons e fuel values f _ wanted more hfb.1 hfb.2]
      by_cases h : wanted = f.name
      · simp only [h, if_true, mergeKept]
        rw [ih hb2 fuel hf2]
        simp
      · simp only [h, if_false, mergeKept]
        rw [ih hb2 fuel hf2]

theorem DeserializeRowFilter_wire (e : Endian) (row : List Field) (hb : Row.Bounded row)
    (flt : List Bytes) :
    DeserializeRowFilter e [] (wireRecord e row) flt =
      if flt.Sublist (row.map Field.name) then .ok (mergeKept row flt)
      else .fault .assertion := by
  rw [DeserializeRowFilter, DeserializeRowFilterLoop_wire e row hb _ (length_le_wireRecord e row)]
  simp only [List.nil_append, length_mergeKept_eq_iff]

end TreeLineDB

theorem mergeKept_map_name (row : List Field) (flt : List Bytes)
    (hs : flt.Sublist (row.map Field.name)) : (mergeKept row flt).map Field.name = flt := by
  induction row generalizing flt with
  | nil =>
    have : flt = [] := by simpa using hs
    simp [mergeKept, this]
  | cons f row ih =>
    cases flt with
    | nil => simp [mergeKept]
    | cons wanted more =>
      by_cases h : wanted = f.name
      · subst h
        simp only [List.map_cons, List.cons_sublist_cons] at hs
        simp [mergeKept, ih more hs]
      · simp only [List.map_cons] at hs
        rw [List.sublist_cons_iff] at hs
        have hs : (wanted :: more).Sublist (row.map Field.name) := by
          rcases hs with hs | ⟨r, hr, -⟩
          · exact hs
          · simp only [List.cons.injEq] at hr
            exact absurd hr.1 h
        simpa [mergeKept, h] using ih (wanted :: more) hs

namespace TreeLineDB

theorem DeserializeRowLoop_ok (e : Endian) (fuel : Nat) (values : List Field) (p : Bytes)
    (out : List Field) (h : DeserializeRowLoop e fuel values p = .ok out) :
    ∃ fields, out = values ++ fields ∧ p = wireRecord e fields ∧ Row.Bounded fields := by
  induction fuel generalizing values p with
  | zero =>
    unfold DeserializeRowLoop at h
    split at h
    · rename_i hp
      simp only [Outcome.ok.injEq] at h
      exact ⟨[], by simp [h], by simp [hp, wireRecord_nil], by intro f hf; cases hf⟩
    · cases h
  | succ fuel ih =>
    unfold DeserializeRowLoop at h
    split at h
    · rename_i hp
      simp only [Outcome.ok.injEq] at h
      exact ⟨[], by simp [h], by simp [hp, wireRecord_nil], by intro f hf; cases hf⟩
    · split at h
      · cases h
      · split at h
        · cases h
        · rename_i len1 p1 hr1
          split at h
          · cases h
          · rename_i field p2 hs1
            split at h
            · cases h
            · rename_i len2 p3 hr2
              split at h
              · cases h
              · rename_i value p4 hs2
                obtain ⟨fields, hout, hp4, hbd⟩ := ih _ _ h
                obtain ⟨e1, b1⟩ := readU32_ok hr1
                obtain ⟨e2, l1⟩ := readString_ok hs1
                obtain ⟨e3, b2⟩ := readU32_ok hr2
                obtain ⟨e4, l2⟩ := readString_ok hs2
                refine ⟨⟨field, value⟩ :: fields, by simp [hout], ?_, ?_⟩
                · rw [wireRecord_cons, e1, e2, e3, e4, hp4, l1, l2]
                · intro f hf
                  rcases List.mem_cons.1 hf with rfl | hf
                  · exact ⟨by rw [l1]; exact b1, by rw [l2]; exact b2⟩
                  · exact hbd f hf

theorem DeserializeRow_ok (e : Endian) (data : Bytes) (row : List Field)
    (h : DeserializeRow e [] data = .ok row) : data = wireRecord e row ∧ Row.Bounded row := by
  obtain ⟨fields, hout, hp, hbd⟩ := DeserializeRowLoop_ok e _ _ _ _ h
  simp only [List.nil_append] at hout
  subst hout
  exact ⟨hp, hbd⟩

theorem DeserializeRowLoop_fuel (e : Endian) (fuel : Nat) (values : List Field) (p : Bytes)
    (hf : p.length ≤ fuel) : DeserializeRowLoop e fuel values p ≠ .fault .fuel := by
  induction fuel generalizing values p with
  | zero =>
    have hp : p = [] := List.length_eq_zero.1 (by omega)
    simp [DeserializeRowLoop, hp]
  | succ fuel ih =>
    intro h
    unfold DeserializeRowLoop at h
    split at h
    · cases h
    · split at h
      · cases h
      · split at h
        · rename_i f hr1
          unfold readU32 at hr1
          split at hr1
          · cases hr1
          · simp only [Outcome.fault.injEq] at hr1 h
            rw [← hr1] at h
            cases h
        · rename_i len1 p1 hr1
          split at h
          · rename_i f hs1
            unfold readString at hs1
            split at hs1
            · cases hs1
            · simp only [Outcome.fault.injEq] at hs1 h
              rw [← hs1] at h
              cases h
          · rename_i field p2 hs1
            split at h
            · rename_i f hr2
              unfold readU32 at hr2
              split at hr2
              · cases hr2
              · simp only [Outcome.fault.injEq] at hr2 h
                rw [← hr2] at h
                cases h
            · rename_i len2 p3 hr2
              split at h
              · rename_i f hs2
                unfold readString at hs2
                split at hs2
                · cases hs2
                · simp only [Outcome.fault.injEq] at hs2 h
                  rw [← hs2] at h
                  cases h
              · rename_i value p4 hs2
                obtain ⟨e1, -⟩ := readU32_ok hr1
                obtain ⟨e2, -⟩ := readString_ok hs1
                obtain ⟨e3, -⟩ := readU32_ok hr2
                obtain ⟨e4, -⟩ := readString_ok hs2
                refine ih _ _ ?_ h
                have hl := congrArg List.length e1
                rw [e2, e3, e4] at hl
                simp only [List.length_append, length_objectBytes] at hl
                omega

/-- The loop bound of `DeserializeRow` is never used up. -/
theorem DeserializeRow_total (e : Endian) (values : List Field) (data : Bytes) :
    DeserializeRow e values data ≠ .fault .fuel :=
  DeserializeRowLoop_fuel e _ values data (le_refl _)

theorem DeserializeRowFilterLoop_ok (e : Endian) (fuel : Nat) (values : List Field) (p : Bytes)
    (flt : List Bytes) (out : List Field)
    (h : DeserializeRowFilterLoop e fuel values p flt = .ok out) :
    ∃ fields, out = values ++ fields ∧ Row.Bounded fields := by
  induction fuel generalizing values p flt with
  | zero =>
    unfold DeserializeRowFilterLoop at h
    split at h
    · simp only [Outcome.ok.injEq] at h
      exact ⟨[], by simp [h], by intro f hf; cases hf⟩
    · split at h
      · simp only [Outcome.ok.injEq] at h
        exact ⟨[], by simp [h], by intro f hf; cases hf⟩
      · cases h
  | succ fuel ih =>
    unfold DeserializeRowFilterLoop at h
    split at h
    · simp only [Outcome.ok.injEq] at h
      exact ⟨[], by simp [h], by intro f hf; cases hf⟩
    · split at h
      · simp only [Outcome.ok.injEq] at h
        exact ⟨[], by simp [h], by intro f hf; cases hf⟩
      · split at h
        · cases h
        · split at h
          · cases h
          · rename_i len1 p1 hr1
            split at h
            · cases h
            · rename_i field p2 hs1
              split at h
              · cases h
              · rename_i len2 p3 hr2
                split at h
                · cases h
                · rename_i value p4 hs2
                  obtain ⟨-, b1⟩ := readU32_ok hr1
                  obtain ⟨-, l1⟩ := readString_ok hs1
                  obtain ⟨-, b2⟩ := readU32_ok hr2
                  obtain ⟨-, l2⟩ := readString_ok hs2
                  split at h
                  · obtain ⟨fields, hout, hbd⟩ := ih _ _ _ h
                    refine ⟨⟨field, value⟩ :: fields, by simp [hout], ?_⟩
                    intro f hf
                    rcases List.mem_cons.1 hf with rfl | hf
                    · exact ⟨by rw [l1]; exact b1, by rw [l2]; exact b2⟩
                    · exact hbd f hf
                  · exact ih _ _ _ h

theorem DeserializeRowFilter_ok (e : Endian) (data : Bytes) (flt : List Bytes)
    (out : List Field) (h : DeserializeRowFilter e [] data flt = .ok out) :
    Row.Bounded out ∧ out.length = flt.length := by
  unfold DeserializeRowFilter at h
  split at h
  · cases h
  · rename_i values hl
    obtain ⟨fields, hout, hbd⟩ := DeserializeRowFilterLoop_ok e _ _ _ _ _ hl
    simp only [List.nil_append] at hout
    subst hout
    split at h
    · rename_i hlen
      simp only [Outcome.ok.injEq] at h
      subst h
      exact ⟨hbd, hlen⟩
    · cases h

end TreeLineDB

/-! ## The claims on the record codec -/

theorem TreeLineDB.DeserializeRow_SerializeRow (e : Endian) (row : List Field)
    (hb : Row.Bounded row) :
    TreeLineDB.DeserializeRow e [] (TreeLineDB.SerializeRow e row []) = .ok row := by
  rw [TreeLineDB.SerializeRow_eq, List.nil_append, TreeLineDB.DeserializeRow_wire e row hb]
  simp

theorem LSM2LIXDB.DeserializeRow_SerializeRow_lsm (e : Endian) (row : List Field)
    (hb : Row.Bounded row) :
    LSM2LIXDB.DeserializeRow e [] (LSM2LIXDB.SerializeRow e row []) = .ok row := by
  rw [LSM2LIXDB.SerializeRow_eq_TreeLine, LSM2LIXDB.DeserializeRow_eq_TreeLine,
    TreeLineDB.DeserializeRow_SerializeRow e row hb]

theorem not_roundtrip_of_long_name (e : Endian) (name value : Bytes) (rest : List Field)
    (hlong : 2 ^ 32 ≤ name.length) :
    TreeLineDB.DeserializeRow e [] (TreeLineDB.SerializeRow e (⟨name, value⟩ :: rest) []) ≠
      .ok (⟨name, value⟩ :: rest) := by
  intro h
  have hb := (TreeLineDB.DeserializeRow_ok e _ _ h).2 ⟨name, value⟩ (List.mem_cons_self _ _)
  exact absurd hb.1 (by simpa using hlong)

theorem not_filtered_of_long_name (e : Endian) (name value : Bytes) (rest : List Field)
    (flt : List Bytes) (hlong : 2 ^ 32 ≤ name.length) :
    TreeLineDB.DeserializeRowFilter e [] (TreeLineDB.SerializeRow e (⟨name, value⟩ :: rest) [])
      flt ≠ .ok (⟨name, value⟩ :: rest) := by
  intro h
  have hb := (TreeLineDB.DeserializeRowFilter_ok e _ _ _ h).1 ⟨name, value⟩
    (List.mem_cons_self _ _)
  exact absurd hb.1 (by simpa using hlong)

/-- C1, as stated, fails: a row of one field whose name is `2 ^ 32` zero bytes and whose value
is empty is not what `DeserializeRow` yields from the bytes `SerializeRow` produces for it (the
4-byte length written for the name is `0`). -/
theorem roundtrip_fails_on_name_of_length_2_pow_32 :
    TreeLineDB.DeserializeRow .little []
        (TreeLineDB.SerializeRow .little [⟨List.replicate (2 ^ 32) 0, []⟩] []) ≠
      .ok [⟨List.replicate (2 ^ 32) 0, []⟩] :=
  not_roundtrip_of_long_name .little _ _ _ (by rw [List.length_replicate])

/-- C1, amended: for every row (any number of fields) whose names and values are each shorter
than `2 ^ 32` bytes, `DeserializeRow` applied to the bytes `SerializeRow` produces from an empty
buffer yields exactly the row, in both adapters. -/
theorem roundtrip_of_bounded (e : Endian) (row : List Field) (hb : Row.Bounded row) :
    TreeLineDB.DeserializeRow e [] (TreeLineDB.SerializeRow e row []) = .ok row ∧
      LSM2LIXDB.DeserializeRow e [] (LSM2LIXDB.SerializeRow e row []) = .ok row := by
  exact ⟨TreeLineDB.DeserializeRow_SerializeRow e row hb,
    LSM2LIXDB.DeserializeRow_SerializeRow_lsm e row hb⟩

/-- The round trip at the row `[(field0, aaa), (field1, bbb)]`, and at the empty row. -/
theorem roundtrip_of_bounded_witness :
    (TreeLineDB.DeserializeRow .little []
        (TreeLineDB.SerializeRow .little
          [⟨[102, 105, 101, 108, 100, 48], [97, 97, 97]⟩,
           ⟨[102, 105, 101, 108, 100, 49], [98, 98, 98]⟩] []) =
      .ok [⟨[102, 105, 101, 108, 100, 48], [97, 97, 97]⟩,
           ⟨[102, 105, 101, 108, 100, 49], [98, 98, 98]⟩] ∧
      LSM2LIXDB.DeserializeRow .little []
        (LSM2LIXDB.SerializeRow .little
          [⟨[102, 105, 101, 108, 100, 48], [97, 97, 97]⟩,
           ⟨[102, 105, 101, 108, 100, 49], [98, 98, 98]⟩] []) =
      .ok [⟨[102, 105, 101, 108, 100, 48], [97, 97, 97]⟩,
           ⟨[102, 105, 101, 108, 100, 49], [98, 98, 98]⟩]) ∧
    (TreeLineDB.DeserializeRow .big [] (TreeLineDB.SerializeRow .big [] []) = .ok [] ∧
      LSM2LIXDB.DeserializeRow .big [] (LSM2LIXDB.SerializeRow .big [] []) = .ok []) :=
  ⟨roundtrip_of_bounded .little _ (by unfold Row.Bounded; decide),
   roundtrip_of_bounded .big [] (by unfold Row.Bounded; decide)⟩

/-- C2: in both adapters `SerializeRow` applied to an empty buffer produces exactly the wire
record of the row, the concatenation over the fields in order of the 4-byte name length, the
name, the 4-byte value length and the value; its length is the sum over the fields of
`8 + |name| + |value|`, and the empty row gives the empty byte string. -/
theorem SerializeRow_wireRecord (e : Endian) (row : List Field) :
    TreeLineDB.SerializeRow e row [] = wireRecord e row ∧
      LSM2LIXDB.SerializeRow e row [] = wireRecord e row ∧
      (TreeLineDB.SerializeRow e row []).length =
        (row.map fun f => 8 + f.name.length + f.value.length).sum ∧
      (LSM2LIXDB.SerializeRow e row []).length =
        (row.map fun f => 8 + f.name.length + f.value.length).sum ∧
      TreeLineDB.SerializeRow e [] [] = [] ∧ LSM2LIXDB.SerializeRow e [] [] = [] := by
  have h : TreeLineDB.SerializeRow e row [] = wireRecord e row := by
    rw [TreeLineDB.SerializeRow_eq, List.nil_append]
  have h2 : LSM2LIXDB.SerializeRow e row [] = wireRecord e row := by
    rw [LSM2LIXDB.SerializeRow_eq_TreeLine, h]
  exact ⟨h, h2, by rw [h, length_wireRecord], by rw [h2, length_wireRecord], rfl, rfl⟩

/-- C3, as stated, fails: for the row of one field whose name is `2 ^ 32` zero bytes, with the
filter list holding that name, `DeserializeRowFilter` does not return the field. -/
theorem filtered_decode_fails_on_name_of_length_2_pow_32 :
    TreeLineDB.DeserializeRowFilter .little []
        (TreeLineDB.SerializeRow .little [⟨List.replicate (2 ^ 32) 0, []⟩] [])
        [List.replicate (2 ^ 32) 0] ≠
      .ok [⟨List.replicate (2 ^ 32) 0, []⟩] :=
  not_filtered_of_long_name .little _ _ _ _ (by rw [List.length_replicate])

/-- C3, amended: for every row whose names and values are each shorter than `2 ^ 32` bytes and
whose field names are pairwise distinct, and every filter list that is a subsequence of the
row's field names, `DeserializeRowFilter` applied to the serialised row and the filter returns
exactly the row's fields named by the filter, with their values; their names in order are the
filter list.  In both adapters. -/
theorem filtered_decode_of_bounded (e : Endian) (row : List Field) (filter : List Bytes)
    (hb : Row.Bounded row) (hnd : (row.map Field.name).Nodup)
    (hs : filter.Sublist (row.map Field.name)) :
    TreeLineDB.DeserializeRowFilter e [] (TreeLineDB.SerializeRow e row []) filter =
        .ok (row.filter fun f => decide (f.name ∈ filter)) ∧
      LSM2LIXDB.DeserializeRowFilter e [] (LSM2LIXDB.SerializeRow e row []) filter =
        .ok (row.filter fun f => decide (f.name ∈ filter)) ∧
      (row.filter fun f => decide (f.name ∈ filter)).map Field.name = filter := by
  have h : TreeLineDB.DeserializeRowFilter e [] (TreeLineDB.SerializeRow e row []) filter =
      .ok (row.filter fun f => decide (f.name ∈ filter)) := by
    rw [TreeLineDB.SerializeRow_eq, List.nil_append, TreeLineDB.DeserializeRowFilter_wire e row hb,
      if_pos hs, mergeKept_eq_filter row filter hnd hs]
  refine ⟨h, ?_, ?_⟩
  · rw [LSM2LIXDB.SerializeRow_eq_TreeLine, LSM2LIXDB.DeserializeRowFilter_eq_TreeLine, h]
  · rw [← mergeKept_eq_filter row filter hnd hs, mergeKept_map_name row filter hs]

/-- The filtered decode of the row `[(1, 11), (2, 12), (3, 13)]` with the filter `[1, 3]`. -/
theorem filtered_decode_of_bounded_witness :
    TreeLineDB.DeserializeRowFilter .little []
        (TreeLineDB.SerializeRow .little [⟨[1], [11]⟩, ⟨[2], [12]⟩, ⟨[3], [13]⟩] [])
        [[1], [3]] =
        .ok ([⟨[1], [11]⟩, ⟨[2], [12]⟩, ⟨[3], [13]⟩].filter
          fun f => decide (f.name ∈ [[1], [3]])) ∧
      LSM2LIXDB.DeserializeRowFilter .little []
        (LSM2LIXDB.SerializeRow .little [⟨[1], [11]⟩, ⟨[2], [12]⟩, ⟨[3], [13]⟩] [])
        [[1], [3]] =
        .ok ([⟨[1], [11]⟩, ⟨[2], [12]⟩, ⟨[3], [13]⟩].filter
          fun f => decide (f.name ∈ [[1], [3]])) ∧
      ([⟨[1], [11]⟩, ⟨[2], [12]⟩, ⟨[3], [13]⟩].filter
          fun f : Field => decide (f.name ∈ [[1], [3]])).map Field.name = [[1], [3]] :=
  filtered_decode_of_bounded .little [⟨[1], [11]⟩, ⟨[2], [12]⟩, ⟨[3], [13]⟩] [[1], [3]]
    (by unfold Row.Bounded; decide) (by decide) (by decide)

/-- C4: for every buffer that is a well-formed encoded row (one that `DeserializeRow` decodes,
to `row`) and every filter list that the row's field names do not match in order (the filter is
not a subsequence of them: a name is absent, or the order differs), `DeserializeRowFilter` ends
in the failed assertion `values.size() == fields.size()`; it does not return.  In both
adapters. -/
theorem filter_mismatch_faults (e : Endian) (data : Bytes) (row : List Field)
    (filter : List Bytes) (hwf : TreeLineDB.DeserializeRow e [] data = .ok row)
    (hmis : ¬ filter.Sublist (row.map Field.name)) :
    TreeLineDB.DeserializeRowFilter e [] data filter = .fault .assertion ∧
      LSM2LIXDB.DeserializeRowFilter e [] data filter = .fault .assertion := by
  obtain ⟨hd, hb⟩ := TreeLineDB.DeserializeRow_ok e data row hwf
  have h : TreeLineDB.DeserializeRowFilter e [] data filter = .fault .assertion := by
    rw [hd, TreeLineDB.DeserializeRowFilter_wire e row hb, if_neg hmis]
  exact ⟨h, by rw [LSM2LIXDB.DeserializeRowFilter_eq_TreeLine, h]⟩

/-- The encoded row `[(1, 11), (2, 12), (3, 13)]` with the filter `[3, 1]`, whose order differs
from the encoded order. -/
theorem filter_mismatch_faults_witness :
    TreeLineDB.DeserializeRowFilter .little []
        [1, 0, 0, 0, 1, 1, 0, 0, 0, 11, 1, 0, 0, 0, 2, 1, 0, 0, 0, 12,
         1, 0, 0, 0, 3, 1, 0, 0, 0, 13] [[3], [1]] = .fault .assertion ∧
      LSM2LIXDB.DeserializeRowFilter .little []
        [1, 0, 0, 0, 1, 1, 0, 0, 0, 11, 1, 0, 0, 0, 2, 1, 0, 0, 0, 12,
         1, 0, 0, 0, 3, 1, 0, 0, 0, 13] [[3], [1]] = .fault .assertion :=
  filter_mismatch_faults .little _ [⟨[1], [11]⟩, ⟨[2], [12]⟩, ⟨[3], [13]⟩] [[3], [1]]
    (by decide) (by decide)

/-- C5 at a buffer cut off in the middle of a field, a length 10 followed by 3 bytes:
`DeserializeRow` reads outside the buffer, in both adapters, and so it does on the 24
characters `'0'` that `TreeLineDB::Init` bulk-loads as a value. -/
theorem DeserializeRow_reads_past_truncated_buffer :
    TreeLineDB.DeserializeRow .little [] [10, 0, 0, 0, 1, 2, 3] = .fault .outOfBounds ∧
      LSM2LIXDB.DeserializeRow .little [] [10, 0, 0, 0, 1, 2, 3] = .fault .outOfBounds ∧
      TreeLineDB.DeserializeRow .little [] [1, 0, 0] = .fault .outOfBounds ∧
      TreeLineDB.DeserializeRow .little [] (List.replicate 24 48) = .fault .outOfBounds := by
  decide

namespace TreeLineDB

/-! ## The key conversion of the TreeLine adapter -/

theorem c_str_lt (key : Bytes) (i : Nat) (hi : i < (key ++ [0]).length) :
    c_str key i = .ok ((key ++ [0]).get ⟨i, hi⟩) := by
  unfold c_str
  rw [List.getElem?_eq_getElem hi]
  rfl

theorem convertLoop_inside (key : Bytes) (n i : Nat) (key_char : Bytes)
    (h : i + n ≤ (key ++ [0]).length) :
    convertLoop key n i key_char = .ok (key_char ++ ((key ++ [0]).drop i).take n) := by
  induction n generalizing i key_char with
  | zero => simp [convertLoop]
  | succ n ih =>
    have hi : i < (key ++ [0]).length := by omega
    rw [convertLoop, c_str_lt key i hi]
    simp only
    rw [ih (i + 1) _ (by omega), List.drop_eq_getElem_cons hi, List.take_succ_cons]
    simp

theorem convert_of_length_ge (e : Endian) (key : Bytes) (h : 8 ≤ key.length) :
    convert e key = .ok (objectValue e (key.take 8)) := by
  unfold convert
  rw [convertLoop_inside key 8 0 [] (by simp; omega)]
  simp [List.take_append_of_le_length h]

end TreeLineDB

/-- C6: the numeric key the TreeLine adapter derives from a key of at least 8 bytes is the
8-byte unsigned integer whose bytes, in the platform's order, are the first 8 bytes of the key;
so two such keys with equal first 8 bytes give equal numeric keys, whatever follows. -/
theorem convert_first_eight_bytes (e : Endian) (k1 k2 : Bytes) (h1 : 8 ≤ k1.length)
    (h2 : 8 ≤ k2.length) (heq : k1.take 8 = k2.take 8) :
    TreeLineDB.convert e k1 = TreeLineDB.convert e k2 ∧
      TreeLineDB.convert e k1 = .ok (objectValue e (k1.take 8)) := by
  rw [TreeLineDB.convert_of_length_ge e k1 h1, TreeLineDB.convert_of_length_ge e k2 h2, heq]
  exact ⟨rfl, rfl⟩

/-- The keys `00000001` and `00000001xyz`: one numeric key, and on a little-endian platform it
is `0x3130303030303030`, not the number `1`. -/
theorem convert_first_eight_bytes_witness :
    (TreeLineDB.convert .little [48, 48, 48, 48, 48, 48, 48, 49] =
        TreeLineDB.convert .little [48, 48, 48, 48, 48, 48, 48, 49, 120, 121, 122] ∧
      TreeLineDB.convert .little [48, 48, 48, 48, 48, 48, 48, 49] =
        .ok (objectValue .little ([48, 48, 48, 48, 48, 48, 48, 49].take 8))) ∧
    objectValue .little ([48, 48, 48, 48, 48, 48, 48, 49].take 8) = 3544385890265608240 :=
  ⟨convert_first_eight_bytes .little [48, 48, 48, 48, 48, 48, 48, 49]
      [48, 48, 48, 48, 48, 48, 48, 49, 120, 121, 122] (by decide) (by decide) (by decide),
    by decide⟩

namespace TreeLineDB

theorem Init_of_live {σ : Type} (B : PageGroupedDB σ) (props : Props) (env : OpenEnv σ)
    (s : Shared σ) (fc : Int) (hl : s.db_.isLive = true)
    (hok : (Init B props env s).2 = .ok fc) :
    (Init B props env s).1 = { s with ref_cnt_ := s.ref_cnt_ + 1 } := by
  obtain ⟨db_, rc, o, c⟩ := s
  cases db_ with
  | null => simp [Handle.isLive] at hl
  | deleted => simp [Handle.isLive] at hl
  | live db =>
    unfold Init at hok ⊢
    by_cases hfmt : props.format = "single"
    · cases hfc : props.fieldcount with
      | none => simp [hfmt, hfc] at hok
      | some fieldcount =>
        by_cases hmax : rc = INT_MAX
        · simp [hfmt, hfc, hmax] at hok
        · simp [hfmt, hfc, hmax]
    · simp [hfmt] at hok

theorem Init_of_null {σ : Type} (B : PageGroupedDB σ) (props : Props) (env : OpenEnv σ)
    (s : Shared σ) (fc : Int) (hn : s.db_ = .null)
    (hok : (Init B props env s).2 = .ok fc) :
    (Init B props env s).1.db_.isLive = true ∧
      (Init B props env s).1.ref_cnt_ = s.ref_cnt_ + 1 ∧
      (Init B props env s).1.opens = s.opens + 1 ∧
      (Init B props env s).1.closes = s.closes := by
  obtain ⟨db_, rc, o, c⟩ := s
  simp only at hn
  subst hn
  unfold Init at hok ⊢
  by_cases hfmt : props.format = "single"
  · cases hfc : props.fieldcount with
    | none => simp [hfmt, hfc] at hok
    | some fieldcount =>
      by_cases hmax : rc = INT_MAX
      · simp [hfmt, hfc, hmax] at hok
      · by_cases hname : props.dbname = ""
        · simp [hfmt, hfc, hmax, hname] at hok
        · cases hop : env.opened with
          | none =>
            by_cases hempty : env.empty = true <;> simp [hfmt, hfc, hmax, hname, hop, hempty] at hok
          | some db =>
            by_cases hempty : env.empty = true
            · cases hbl : B.BulkLoad db bulkRecords with
              | mk status db2 =>
                by_cases hst : status = .ok
                · simp [hfmt, hfc, hmax, hname, hop, hempty, hbl, hst, Handle.isLive]
                · simp [hfmt, hfc, hmax, hname, hop, hempty, hbl, hst] at hok
            · simp [hfmt, hfc, hmax, hname, hop, hempty, Handle.isLive]
  · simp [hfmt] at hok

theorem Cleanup_of_gt_one {σ : Type} (s : Shared σ) (h : 1 < s.ref_cnt_) :
    Cleanup s = ({ s with ref_cnt_ := s.ref_cnt_ - 1 }, .ok ()) := by
  have h1 : s.ref_cnt_ ≠ INT_MIN := by unfold INT_MIN; omega
  have h2 : s.ref_cnt_ - 1 ≠ 0 := by omega
  simp [Cleanup, h1, h2]

theorem Cleanup_of_one {σ : Type} (s : Shared σ) (h : s.ref_cnt_ = 1)
    (hl : s.db_.isLive = true) :
    Cleanup s = ({ s with ref_cnt_ := 0, db_ := .deleted, closes := s.closes + 1 }, .ok ()) := by
  obtain ⟨db_, rc, o, c⟩ := s
  simp only at h
  subst h
  cases db_ with
  | null => simp [Handle.isLive] at hl
  | deleted => simp [Handle.isLive] at hl
  | live db => simp [Cleanup, INT_MIN]

theorem InitAll_of_live {σ : Type} (B : PageGroupedDB σ) (calls : List (Props × OpenEnv σ))
    (s : Shared σ) (hl : s.db_.isLive = true) (hok : (InitAll B calls s).2 = true) :
    (InitAll B calls s).1 = { s with ref_cnt_ := s.ref_cnt_ + calls.length } := by
  induction calls generalizing s with
  | nil => simp [InitAll]
  | cons c calls ih =>
    unfold InitAll at hok ⊢
    cases hI : Init B c.1 c.2 s with
    | mk s1 r =>
      cases r with
      | fault f => simp [hI] at hok
      | ok fc =>
        simp only [hI] at hok ⊢
        have h1 := Init_of_live B c.1 c.2 s fc hl (by rw [hI])
        rw [hI] at h1
        simp only at h1
        subst h1
        rw [ih { s with ref_cnt_ := s.ref_cnt_ + 1 } hl hok]
        simp only [List.length_cons, Nat.cast_add, Nat.cast_one, Shared.mk.injEq, true_and,
          and_true]
        omega

theorem InitAll_take {σ : Type} (B : PageGroupedDB σ) (calls : List (Props × OpenEnv σ))
    (s : Shared σ) (k : Nat) (hok : (InitAll B calls s).2 = true) :
    (InitAll B (calls.take k) s).2 = true := by
  induction calls generalizing s k with
  | nil => simp [InitAll]
  | cons c calls ih =>
    cases k with
    | zero => simp [InitAll]
    | succ k =>
      unfold InitAll at hok
      rw [List.take_succ_cons]
      unfold InitAll
      cases hI : Init B c.1 c.2 s with
      | mk s1 r =>
        cases r with
        | fault f => simp [hI] at hok
        | ok fc =>
          simp only [hI] at hok ⊢
          exact ih s1 k hok

theorem InitAll_initial {σ : Type} (B : PageGroupedDB σ) (calls : List (Props × OpenEnv σ))
    (hne : calls ≠ []) (hok : (InitAll B calls Shared.initial).2 = true) :
    (InitAll B calls Shared.initial).1.db_.isLive = true ∧
      (InitAll B calls Shared.initial).1.ref_cnt_ = calls.length ∧
      (InitAll B calls Shared.initial).1.opens = 1 ∧
      (InitAll B calls Shared.initial).1.closes = 0 := by
  cases calls with
  | nil => exact absurd rfl hne
  | cons c calls =>
    unfold InitAll at hok ⊢
    cases hI : Init B c.1 c.2 Shared.initial with
    | mk s1 r =>
      cases r with
      | fault f => simp [hI] at hok
      | ok fc =>
        simp only [hI] at hok ⊢
        obtain ⟨h1, h2, h3, h4⟩ := Init_of_null B c.1 c.2 Shared.initial fc rfl (by rw [hI])
        rw [hI] at h1 h2 h3 h4
        simp only [Shared.initial] at h1 h2 h3 h4
        rw [InitAll_of_live B calls s1 h1 hok]
        refine ⟨h1, ?_, h3, h4⟩
        simp only [h2, List.length_cons, Nat.cast_add, Nat.cast_one]
        omega

theorem CleanupAll_of_lt {σ : Type} (k : Nat) (s : Shared σ) (h : (k : Int) < s.ref_cnt_) :
    CleanupAll k s = ({ s with ref_cnt_ := s.ref_cnt_ - k }, true) := by
  induction k generalizing s with
  | zero => simp [CleanupAll]
  | succ k ih =>
    have h1 : 1 < s.ref_cnt_ := by push_cast at h; omega
    unfold CleanupAll
    rw [Cleanup_of_gt_one s h1]
    simp only
    rw [ih { s with ref_cnt_ := s.ref_cnt_ - 1 } (by simp only; push_cast at h; omega)]
    simp only [Nat.cast_add, Nat.cast_one, Prod.mk.injEq, Shared.mk.injEq, true_and, and_true]
    omega

theorem CleanupAll_of_eq {σ : Type} (n : Nat) (s : Shared σ) (hn : 1 ≤ n)
    (h : s.ref_cnt_ = n) (hl : s.db_.isLive = true) :
    CleanupAll n s =
      ({ s with ref_cnt_ := 0, db_ := .deleted, closes := s.closes + 1 }, true) := by
  induction n generalizing s with
  | zero => omega
  | succ n ih =>
    unfold CleanupAll
    by_cases h1 : n = 0
    · subst h1
      rw [Cleanup_of_one s (by simpa using h) hl]
      simp [CleanupAll]
    · rw [Cleanup_of_gt_one s (by rw [h]; push_cast; omega)]
      simp only
      rw [ih { s with ref_cnt_ := s.ref_cnt_ - 1 } (by omega)
        (by simp only [h]; push_cast; omega) hl]

end TreeLineDB

namespace LSM2LIXDB

theorem Init_of_live_lsm {σ : Type} (props : Props) (env : OpenEnv σ)
    (s : Shared σ) (fc : Int) (hl : s.db_.isLive = true)
    (hok : (Init props env s).2 = .ok fc) :
    (Init props env s).1 = { s with ref_cnt_ := s.ref_cnt_ + 1 } := by
  obtain ⟨db_, rc, o, c⟩ := s
  cases db_ with
  | null => simp [Handle.isLive] at hl
  | deleted => simp [Handle.isLive] at hl
  | live db =>
    unfold Init at hok ⊢
    cases hfc : props.fieldcount with
    | none => simp [hfc] at hok
    | some fieldcount =>
      by_cases hmax : rc = INT_MAX
      · simp [hfc, hmax] at hok
      · simp [hfc, hmax]

theorem Init_of_null_lsm {σ : Type} (props : Props) (env : OpenEnv σ)
    (s : Shared σ) (fc : Int) (hn : s.db_ = .null)
    (hok : (Init props env s).2 = .ok fc) :
    (Init props env s).1.db_.isLive = true ∧
      (Init props env s).1.ref_cnt_ = s.ref_cnt_ + 1 ∧
      (Init props env s).1.opens = s.opens + 1 ∧
      (Init props env s).1.closes = s.closes := by
  obtain ⟨db_, rc, o, c⟩ := s
  simp only at hn
  subst hn
  unfold Init at hok ⊢
  cases hfc : props.fieldcount with
  | none => simp [hfc] at hok
  | some fieldcount =>
    by_cases hmax : rc = INT_MAX
    · simp [hfc, hmax] at hok
    · cases hop : env.opened with
      | none => simp [hfc, hmax, hop] at hok
      | some db => simp [hfc, hmax, hop, Handle.isLive]

theorem Cleanup_of_gt_one_lsm {σ : Type} (s : Shared σ) (h : 1 < s.ref_cnt_) :
    Cleanup s = ({ s with ref_cnt_ := s.ref_cnt_ - 1 }, .ok ()) := by
  have h1 : s.ref_cnt_ ≠ INT_MIN := by unfold INT_MIN; omega
  have h2 : s.ref_cnt_ - 1 ≠ 0 := by omega
  simp [Cleanup, h1, h2]

theorem Cleanup_of_one_lsm {σ : Type} (s : Shared σ) (h : s.ref_cnt_ = 1)
    (hl : s.db_.isLive = true) :
    Cleanup s = ({ s with ref_cnt_ := 0, db_ := .deleted, closes := s.closes + 1 }, .ok ()) := by
  obtain ⟨db_, rc, o, c⟩ := s
  simp only at h
  subst h
  cases db_ with
  | null => simp [Handle.isLive] at hl
  | deleted => simp [Handle.isLive] at hl
  | live db => simp [Cleanup, INT_MIN]

theorem InitAll_of_live_lsm {σ : Type} (calls : List (Props × OpenEnv σ))
    (s : Shared σ) (hl : s.db_.isLive = true) (hok : (InitAll calls s).2 = true) :
    (InitAll calls s).1 = { s with ref_cnt_ := s.ref_cnt_ + calls.length } := by
  induction calls generalizing s with
  | nil => simp [InitAll]
  | cons c calls ih =>
    unfold InitAll at hok ⊢
    cases hI : Init c.1 c.2 s with
    | mk s1 r =>
      cases r with
      | fault f => simp [hI] at hok
      | ok fc =>
        simp only [hI] at hok ⊢
        have h1 := Init_of_live_lsm c.1 c.2 s fc hl (by rw [hI])
        rw [hI] at h1
        simp only at h1
        subst h1
        rw [ih { s with ref_cnt_ := s.ref_cnt_ + 1 } hl hok]
        simp only [List.length_cons, Nat.cast_add, Nat.cast_one, Shared.mk.injEq, true_and,
          and_true]
        omega

theorem InitAll_take_lsm {σ : Type} (calls : List (Props × OpenEnv σ))
    (s : Shared σ) (k : Nat) (hok : (InitAll calls s).2 = true) :
    (InitAll (calls.take k) s).2 = true := by
  induction calls generalizing s k with
  | nil => simp [InitAll]
  | cons c calls ih =>
    cases k with
    | zero => simp [InitAll]
    | succ k =>
      unfold InitAll at hok
      rw [List.take_succ_cons]
      unfold InitAll
      cases hI : Init c.1 c.2 s with
      | mk s1 r =>
        cases r with
        | fault f => simp [hI] at hok
        | ok fc =>
          simp only [hI] at hok ⊢
          exact ih s1 k hok

theorem InitAll_initial_lsm {σ : Type} (calls : List (Props × OpenEnv σ))
    (hne : calls ≠ []) (hok : (InitAll calls Shared.initial).2 = true) :
    (InitAll calls Shared.initial).1.db_.isLive = true ∧
      (InitAll calls Shared.initial).1.ref_cnt_ = calls.length ∧
      (InitAll calls Shared.initial).1.opens = 1 ∧
      (InitAll calls Shared.initial).1.closes = 0 := by
  cases calls with
  | nil => exact absurd rfl hne
  | cons c calls =>
    unfold InitAll at hok ⊢
    cases hI : Init c.1 c.2 Shared.initial with
    | mk s1 r =>
      cases r with
      | fault f => simp [hI] at hok
      | ok fc =>
        simp only [hI] at hok ⊢
        obtain ⟨h1, h2, h3, h4⟩ := Init_of_null_lsm c.1 c.2 Shared.initial fc rfl (by rw [hI])
        rw [hI] at h1 h2 h3 h4
        simp only [Shared.initial] at h1 h2 h3 h4
        rw [InitAll_of_live_lsm calls s1 h1 hok]
        refine ⟨h1, ?_, h3, h4⟩
        simp only [h2, List.length_cons, Nat.cast_add, Nat.cast_one]
        omega

theorem CleanupAll_of_lt_lsm {σ : Type} (k : Nat) (s : Shared σ) (h : (k : Int) < s.ref_cnt_) :
    CleanupAll k s = ({ s with ref_cnt_ := s.ref_cnt_ - k }, true) := by
  induction k generalizing s with
  | zero => simp [CleanupAll]
  | succ k ih =>
    have h1 : 1 < s.ref_cnt_ := by push_cast at h; omega
    unfold CleanupAll
    rw [Cleanup_of_gt_one_lsm s h1]
    simp only
    rw [ih { s with ref_cnt_ := s.ref_cnt_ - 1 } (by simp only; push_cast at h; omega)]
    simp only [Nat.cast_add, Nat.cast_one, Prod.mk.injEq, Shared.mk.injEq, true_and, and_true]
    omega

theorem CleanupAll_of_eq_lsm {σ : Type} (n : Nat) (s : Shared σ) (hn : 1 ≤ n)
    (h : s.ref_cnt_ = n) (hl : s.db_.isLive = true) :
    CleanupAll n s =
      ({ s with ref_cnt_ := 0, db_ := .deleted, closes := s.closes + 1 }, true) := by
  induction n generalizing s with
  | zero => omega
  | succ n ih =>
    unfold CleanupAll
    by_cases h1 : n = 0
    · subst h1
      rw [Cleanup_of_one_lsm s (by simpa using h) hl]
      simp [CleanupAll]
    · rw [Cleanup_of_gt_one_lsm s (by rw [h]; push_cast; omega)]
      simp only
      rw [ih { s with ref_cnt_ := s.ref_cnt_ - 1 } (by omega)
        (by simp only [h]; push_cast; omega) hl]

end LSM2LIXDB

/-- C8: from the initial state (no handle, reference count 0), for every non-empty sequence of
serialised `Init` calls that all return, followed by as many `Cleanup` calls, in both adapters:
the backend has been opened exactly once after the first `Init` and after every later one;
while fewer `Cleanup` calls than `Init` calls have been made the reference count is the
difference and nothing has been closed; every `Cleanup` returns, and after the last one the
backend has been opened once and closed once and the reference count is 0. -/
theorem lifecycle_refcount {σ τ : Type} (B : PageGroupedDB σ)
    (tcalls : List (Props × OpenEnv σ)) (lcalls : List (Props × OpenEnv τ)) :
    (tcalls ≠ [] → (TreeLineDB.InitAll B tcalls Shared.initial).2 = true →
      (∀ k, 1 ≤ k → k ≤ tcalls.length →
        (TreeLineDB.InitAll B (tcalls.take k) Shared.initial).1.opens = 1) ∧
      (∀ k, k < tcalls.length →
        (TreeLineDB.CleanupAll k (TreeLineDB.InitAll B tcalls Shared.initial).1).2 = true ∧
        (TreeLineDB.CleanupAll k (TreeLineDB.InitAll B tcalls Shared.initial).1).1.closes = 0 ∧
        (TreeLineDB.CleanupAll k (TreeLineDB.InitAll B tcalls Shared.initial).1).1.ref_cnt_ =
          tcalls.length - k) ∧
      (TreeLineDB.CleanupAll tcalls.length
        (TreeLineDB.InitAll B tcalls Shared.initial).1).2 = true ∧
      (TreeLineDB.CleanupAll tcalls.length
        (TreeLineDB.InitAll B tcalls Shared.initial).1).1.opens = 1 ∧
      (TreeLineDB.CleanupAll tcalls.length
        (TreeLineDB.InitAll B tcalls Shared.initial).1).1.closes = 1 ∧
      (TreeLineDB.CleanupAll tcalls.length
        (TreeLineDB.InitAll B tcalls Shared.initial).1).1.ref_cnt_ = 0) ∧
    (lcalls ≠ [] → (LSM2LIXDB.InitAll lcalls Shared.initial).2 = true →
      (∀ k, 1 ≤ k → k ≤ lcalls.length →
        (LSM2LIXDB.InitAll (lcalls.take k) Shared.initial).1.opens = 1) ∧
      (∀ k, k < lcalls.length →
        (LSM2LIXDB.CleanupAll k (LSM2LIXDB.InitAll lcalls Shared.initial).1).2 = true ∧
        (LSM2LIXDB.CleanupAll k (LSM2LIXDB.InitAll lcalls Shared.initial).1).1.closes = 0 ∧
        (LSM2LIXDB.CleanupAll k (LSM2LIXDB.InitAll lcalls Shared.initial).1).1.ref_cnt_ =
          lcalls.length - k) ∧
      (LSM2LIXDB.CleanupAll lcalls.length
        (LSM2LIXDB.InitAll lcalls Shared.initial).1).2 = true ∧
      (LSM2LIXDB.CleanupAll lcalls.length
        (LSM2LIXDB.InitAll lcalls Shared.initial).1).1.opens = 1 ∧
      (LSM2LIXDB.CleanupAll lcalls.length
        (LSM2LIXDB.InitAll lcalls Shared.initial).1).1.closes = 1 ∧
      (LSM2LIXDB.CleanupAll lcalls.length
        (LSM2LIXDB.InitAll lcalls Shared.initial).1).1.ref_cnt_ = 0) := by
  constructor
  · intro hne hok
    obtain ⟨h1, h2, h3, h4⟩ := TreeLineDB.InitAll_initial B tcalls hne hok
    refine ⟨?_, ?_, ?_⟩
    · intro k hk1 hk2
      have hne2 : tcalls.take k ≠ [] := by
        intro h
        have := congrArg List.length h
        simp only [List.length_take, List.length_nil] at this
        omega
      exact (TreeLineDB.InitAll_initial B _ hne2 (TreeLineDB.InitAll_take B tcalls _ k hok)).2.2.1
    · intro k hk
      rw [TreeLineDB.CleanupAll_of_lt k _ (by rw [h2]; exact_mod_cast hk)]
      exact ⟨rfl, h4, by simp only [h2]⟩
    · rw [TreeLineDB.CleanupAll_of_eq tcalls.length _
        (List.length_pos.2 hne) h2 h1]
      exact ⟨rfl, h3, by simp only [h4], rfl⟩
  · intro hne hok
    obtain ⟨h1, h2, h3, h4⟩ := LSM2LIXDB.InitAll_initial_lsm lcalls hne hok
    refine ⟨?_, ?_, ?_⟩
    · intro k hk1 hk2
      have hne2 : lcalls.take k ≠ [] := by
        intro h
        have := congrArg List.length h
        simp only [List.length_take, List.length_nil] at this
        omega
      exact (LSM2LIXDB.InitAll_initial_lsm _ hne2 (LSM2LIXDB.InitAll_take_lsm lcalls _ k hok)).2.2.1
    · intro k hk
      rw [LSM2LIXDB.CleanupAll_of_lt_lsm k _ (by rw [h2]; exact_mod_cast hk)]
      exact ⟨rfl, h4, by simp only [h2]⟩
    · rw [LSM2LIXDB.CleanupAll_of_eq_lsm lcalls.length _
        (List.length_pos.2 hne) h2 h1]
      exact ⟨rfl, h3, by simp only [h4], rfl⟩

namespace TreeLineDB

theorem readU32_fault_ne_fuel {e : Endian} {p : Bytes} {f : Fault}
    (h : readU32 e p = .fault f) : f ≠ .fuel := by
  unfold readU32 at h
  split at h
  · cases h
  · simp only [Outcome.fault.injEq] at h
    rw [← h]
    decide

theorem readString_fault_ne_fuel {p : Bytes} {len : Nat} {f : Fault}
    (h : readString p len = .fault f) : f ≠ .fuel := by
  unfold readString at h
  split at h
  · cases h
  · simp only [Outcome.fault.injEq] at h
    rw [← h]
    decide

theorem DeserializeRowFilterLoop_fuel (e : Endian) (fuel : Nat) (values : List Field)
    (p : Bytes) (flt : List Bytes) (hf : p.length ≤ fuel) :
    DeserializeRowFilterLoop e fuel values p flt ≠ .fault .fuel := by
  induction fuel generalizing values p flt with
  | zero =>
    have hp : p = [] := List.length_eq_zero.1 (by omega)
    simp [DeserializeRowFilterLoop, hp]
  | succ fuel ih =>
    intro h
    unfold DeserializeRowFilterLoop at h
    split at h
    · cases h
    · split at h
      · cases h
      · split at h
        · cases h
        · split at h
          · rename_i f hr1
            simp only [Outcome.fault.injEq] at h
            exact readU32_fault_ne_fuel hr1 h
          · rename_i len1 p1 hr1
            split at h
            · rename_i f hs1
              simp only [Outcome.fault.injEq] at h
              exact readString_fault_ne_fuel hs1 h
            · rename_i field p2 hs1
              split at h
              · rename_i f hr2
                simp only [Outcome.fault.injEq] at h
                exact readU32_fault_ne_fuel hr2 h
              · rename_i len2 p3 hr2
                split at h
                · rename_i f hs2
                  simp only [Outcome.fault.injEq] at h
                  exact readString_fault_ne_fuel hs2 h
                · rename_i value p4 hs2
                  obtain ⟨e1, -⟩ := readU32_ok hr1
                  obtain ⟨e2, -⟩ := readString_ok hs1
                  obtain ⟨e3, -⟩ := readU32_ok hr2
                  obtain ⟨e4, -⟩ := readString_ok hs2
                  have hl := congrArg List.length e1
                  rw [e2, e3, e4] at hl
                  simp only [List.length_append, length_objectBytes] at hl
                  split at h
                  · exact ih _ _ _ (by omega) h
                  · exact ih _ _ _ (by omega) h

/-- The loop bound of `DeserializeRowFilter` is never used up. -/
theorem DeserializeRowFilter_total (e : Endian) (values : List Field) (data : Bytes)
    (fields : List Bytes) : DeserializeRowFilter e values data fields ≠ .fault .fuel := by
  unfold DeserializeRowFilter
  intro h
  split at h
  · rename_i f hl
    simp only [Outcome.fault.injEq] at h
    subst h
    exact DeserializeRowFilterLoop_fuel e _ values data fields (le_refl _) hl
  · split at h <;> cases h

end TreeLineDB

/-- The lifecycle at three `TreeLineDB` instances and two `LSM2LIXDB` instances: one open and
one close each, reference count 0 at the end. -/
theorem lifecycle_refcount_witness :
    ((TreeLineDB.CleanupAll 3
        (TreeLineDB.InitAll mapPageGroupedDB TreeLineDB.threeCalls Shared.initial).1).1.opens = 1 ∧
      (TreeLineDB.CleanupAll 3
        (TreeLineDB.InitAll mapPageGroupedDB TreeLineDB.threeCalls Shared.initial).1).1.closes = 1 ∧
      (TreeLineDB.CleanupAll 3
        (TreeLineDB.InitAll mapPageGroupedDB TreeLineDB.threeCalls
          Shared.initial).1).1.ref_cnt_ = 0) ∧
    ((LSM2LIXDB.CleanupAll 2
        (LSM2LIXDB.InitAll LSM2LIXDB.twoCalls Shared.initial).1).1.opens = 1 ∧
      (LSM2LIXDB.CleanupAll 2
        (LSM2LIXDB.InitAll LSM2LIXDB.twoCalls Shared.initial).1).1.closes = 1 ∧
      (LSM2LIXDB.CleanupAll 2
        (LSM2LIXDB.InitAll LSM2LIXDB.twoCalls Shared.initial).1).1.ref_cnt_ = 0) :=
  ⟨((lifecycle_refcount mapPageGroupedDB TreeLineDB.threeCalls LSM2LIXDB.twoCalls).1
      (by decide) (by decide)).2.2.2,
   ((lifecycle_refcount mapPageGroupedDB TreeLineDB.threeCalls LSM2LIXDB.twoCalls).2
      (by decide) (by decide)).2.2.2⟩

/-! ## Operations over a backend that is a key-to-bytes map -/

theorem MapStore.get_put {κ : Type} [DecidableEq κ] (m : MapStore κ) (k : κ) (v : Bytes) :
    MapStore.get (MapStore.put m k v) k = (.ok, v) := by
  simp [MapStore.get, MapStore.put, List.lookup]

theorem toSizeT_of_length (n : Nat) (fieldcount_ : Int) (h : (n : Int) = fieldcount_)
    (hint : fieldcount_ ≤ INT_MAX) : toSizeT fieldcount_ = n := by
  unfold INT_MAX at hint
  unfold toSizeT
  omega

namespace TreeLineDB

theorem InsertSingle_map (e : Endian) (m : MapStore Nat) (table key : Bytes)
    (values : List Field) (h8 : 8 ≤ key.length) :
    InsertSingle mapPageGroupedDB e (.live m) table key values =
      .ok (.kOK, .live (m.put (objectValue e (key.take 8)) (SerializeRow e values []))) := by
  simp [InsertSingle, convert_of_length_ge e key h8, mapPageGroupedDB]

theorem InsertThenRead_map (e : Endian) (fieldcount_ : Int) (m : MapStore Nat)
    (table key : Bytes) (values : List Field) (h8 : 8 ≤ key.length) :
    InsertThenRead mapPageGroupedDB e fieldcount_ (.live m) table key values =
      match DeserializeRow e [] (SerializeRow e values []) with
      | .fault f => .fault f
      | .ok result =>
        if result.length = toSizeT fieldcount_ then .ok (.kOK, result) else .fault .assertion := by
  unfold InsertThenRead
  rw [InsertSingle_map e m table key values h8]
  simp [ReadSingle, convert_of_length_ge e key h8, mapPageGroupedDB, MapStore.get_put]

theorem not_InsertThenRead_of_long_name (e : Endian) (fieldcount_ : Int) (m : MapStore Nat)
    (table key : Bytes) (name value : Bytes) (rest : List Field) (h8 : 8 ≤ key.length)
    (hlong : 2 ^ 32 ≤ name.length) :
    InsertThenRead mapPageGroupedDB e fieldcount_ (.live m) table key (⟨name, value⟩ :: rest) ≠
      .ok (.kOK, ⟨name, value⟩ :: rest) := by
  rw [InsertThenRead_map e fieldcount_ m table key _ h8]
  intro h
  split at h
  · cases h
  · rename_i result hd
    split at h
    · simp only [Outcome.ok.injEq, Prod.mk.injEq, true_and] at h
      subst h
      exact not_roundtrip_of_long_name e name value rest hlong hd
    · cases h

end TreeLineDB

namespace LSM2LIXDB

theorem InsertSingle_map_lsm (e : Endian) (m : MapStore Bytes) (table key : Bytes)
    (values : List Field) :
    InsertSingle mapLSM2LIX e (.live m) table key values =
      .ok (.kOK, .live (m.put key (SerializeRow e values []))) := by
  simp [InsertSingle, mapLSM2LIX]

theorem InsertThenRead_map_lsm (e : Endian) (fieldcount_ : Int) (m : MapStore Bytes)
    (table key : Bytes) (values : List Field) :
    InsertThenRead mapLSM2LIX e fieldcount_ (.live m) table key values =
      match DeserializeRow e [] (SerializeRow e values []) with
      | .fault f => .fault f
      | .ok result =>
        if result.length = toSizeT fieldcount_ then .ok (.kOK, result) else .fault .assertion := by
  unfold InsertThenRead
  rw [InsertSingle_map_lsm e m table key values]
  simp [ReadSingle, mapLSM2LIX, MapStore.get_put]

end LSM2LIXDB

/-- C9, as stated, fails: with key `00000001` and the row of one field whose name is `2 ^ 32`
zero bytes (field count 1), the `ReadSingle` that follows `InsertSingle` over the map backend
does not return `kOK` with the row. -/
theorem insert_then_read_fails_on_name_of_length_2_pow_32 :
    TreeLineDB.InsertThenRead mapPageGroupedDB .little 1 (.live []) []
        [48, 48, 48, 48, 48, 48, 48, 49] [⟨List.replicate (2 ^ 32) 0, []⟩] ≠
      .ok (.kOK, [⟨List.replicate (2 ^ 32) 0, []⟩]) :=
  TreeLineDB.not_InsertThenRead_of_long_name .little 1 [] [] _ _ _ _ (by decide)
    (by rw [List.length_replicate])

/-- C9, amended: over a backend that is a key-to-bytes map, for every key (of at least 8 bytes
for the TreeLine adapter) and every row whose names and values are each shorter than `2 ^ 32`
bytes and whose number of fields is the configured field count (an `int`), `InsertSingle`
returns `kOK`, and a following `ReadSingle` of the key without a filter into an empty result
returns `kOK` with exactly the row.  In both adapters. -/
theorem insert_then_read (e : Endian) (fieldcount_ : Int) (table key : Bytes)
    (row : List Field) (mt : MapStore Nat) (ml : MapStore Bytes)
    (hb : Row.Bounded row) (hcount : (row.length : Int) = fieldcount_)
    (hint : fieldcount_ ≤ INT_MAX) :
    (8 ≤ key.length →
      (∃ db_, TreeLineDB.InsertSingle mapPageGroupedDB e (.live mt) table key row =
        .ok (.kOK, db_)) ∧
      TreeLineDB.InsertThenRead mapPageGroupedDB e fieldcount_ (.live mt) table key row =
        .ok (.kOK, row)) ∧
    ((∃ db_, LSM2LIXDB.InsertSingle mapLSM2LIX e (.live ml) table key row = .ok (.kOK, db_)) ∧
      LSM2LIXDB.InsertThenRead mapLSM2LIX e fieldcount_ (.live ml) table key row =
        .ok (.kOK, row)) := by
  have hsz := toSizeT_of_length row.length fieldcount_ hcount hint
  have h1 := TreeLineDB.DeserializeRow_SerializeRow e row hb
  have h2 := LSM2LIXDB.DeserializeRow_SerializeRow_lsm e row hb
  refine ⟨fun h8 => ⟨⟨_, TreeLineDB.InsertSingle_map e mt table key row h8⟩, ?_⟩,
    ⟨_, LSM2LIXDB.InsertSingle_map_lsm e ml table key row⟩, ?_⟩
  · rw [TreeLineDB.InsertThenRead_map e fieldcount_ mt table key row h8, h1]
    simp [hsz]
  · rw [LSM2LIXDB.InsertThenRead_map_lsm e fieldcount_ ml table key row, h2]
    simp [hsz]

/-- Key `00000001`, row `[(field0, aaa), (field1, bbb)]`, field count 2, empty maps. -/
theorem insert_then_read_witness :
    TreeLineDB.InsertThenRead mapPageGroupedDB .little 2 (.live []) []
        [48, 48, 48, 48, 48, 48, 48, 49]
        [⟨[102, 105, 101, 108, 100, 48], [97, 97, 97]⟩,
         ⟨[102, 105, 101, 108, 100, 49], [98, 98, 98]⟩] =
      .ok (.kOK, [⟨[102, 105, 101, 108, 100, 48], [97, 97, 97]⟩,
         ⟨[102, 105, 101, 108, 100, 49], [98, 98, 98]⟩]) ∧
    LSM2LIXDB.InsertThenRead mapLSM2LIX .little 2 (.live []) []
        [48, 48, 48, 48, 48, 48, 48, 49]
        [⟨[102, 105, 101, 108, 100, 48], [97, 97, 97]⟩,
         ⟨[102, 105, 101, 108, 100, 49], [98, 98, 98]⟩] =
      .ok (.kOK, [⟨[102, 105, 101, 108, 100, 48], [97, 97, 97]⟩,
         ⟨[102, 105, 101, 108, 100, 49], [98, 98, 98]⟩]) :=
  ⟨((insert_then_read .little 2 [] [48, 48, 48, 48, 48, 48, 48, 49] _ [] []
      (by unfold Row.Bounded; decide) (by decide) (by decide)).1 (by decide)).2,
   (insert_then_read .little 2 [] [48, 48, 48, 48, 48, 48, 48, 49] _ [] []
      (by unfold Row.Bounded; decide) (by decide) (by decide)).2.2⟩

/-- C10 at key `00000001`, inserted with the row `[(field0, aaa), (field1, bbb)]` (field count
2) into an empty map backend and then deleted: `DeleteSingle` returns `kOK`, and the
`ReadSingle` that follows returns `kOK` with the row, not `kNotFound`.  In both adapters. -/
theorem read_after_delete_still_finds_the_row :
    TreeLineDB.InsertDeleteRead mapPageGroupedDB .little 2 (.live []) []
        [48, 48, 48, 48, 48, 48, 48, 49]
        [⟨[102, 105, 101, 108, 100, 48], [97, 97, 97]⟩,
         ⟨[102, 105, 101, 108, 100, 49], [98, 98, 98]⟩] =
      .ok (.kOK, .kOK, [⟨[102, 105, 101, 108, 100, 48], [97, 97, 97]⟩,
         ⟨[102, 105, 101, 108, 100, 49], [98, 98, 98]⟩]) ∧
    LSM2LIXDB.InsertDeleteRead mapLSM2LIX .little 2 (.live []) []
        [48, 48, 48, 48, 48, 48, 48, 49]
        [⟨[102, 105, 101, 108, 100, 48], [97, 97, 97]⟩,
         ⟨[102, 105, 101, 108, 100, 49], [98, 98, 98]⟩] =
      .ok (.kOK, .kOK, [⟨[102, 105, 101, 108, 100, 48], [97, 97, 97]⟩,
         ⟨[102, 105, 101, 108, 100, 49], [98, 98, 98]⟩]) := by
  decide

/-! ## Backend statuses and the operations -/

/-- C11: whenever the backend `Get` reports a missing key for the key of a read (for the
TreeLine adapter, for the numeric key the conversion gives), `ReadSingle` returns `kNotFound`:
it returns normally, not with `kOK`, and with the caller's `result` as it was passed in.  In
both adapters, with or without a filter. -/
theorem read_of_missing_key {σ τ : Type} (B : PageGroupedDB σ) (L : LSM2LIX τ) (e : Endian)
    (fieldcount_ : Int) (db : σ) (dl : τ) (table key : Bytes) (key_num : Nat)
    (fields : Option (List Bytes)) (result : List Field) :
    (TreeLineDB.convert e key = .ok key_num → (B.Get db key_num).1 = .notFound →
      TreeLineDB.ReadSingle B e fieldcount_ (.live db) table key fields result =
        .ok (.kNotFound, result)) ∧
    ((L.Get dl key).1 = .notFound →
      LSM2LIXDB.ReadSingle L e fieldcount_ (.live dl) table key fields result =
        .ok (.kNotFound, result)) := by
  constructor
  · intro hc hg
    simp [TreeLineDB.ReadSingle, hc, hg]
  · intro hg
    simp [LSM2LIXDB.ReadSingle, hg]

/-- Key `99999999`, never inserted, read from a map backend that holds key `00000001` only; the
caller's `result` holds one field beforehand. -/
theorem read_of_missing_key_witness :
    TreeLineDB.ReadSingle mapPageGroupedDB .little 2
        (.live [(3544385890265608240, [1, 0, 0, 0, 102, 1, 0, 0, 0, 97])]) []
        [57, 57, 57, 57, 57, 57, 57, 57] none [⟨[1], [2]⟩] =
      .ok (.kNotFound, [⟨[1], [2]⟩]) ∧
    LSM2LIXDB.ReadSingle mapLSM2LIX .little 2
        (.live [([48, 48, 48, 48, 48, 48, 48, 49], [1, 0, 0, 0, 102, 1, 0, 0, 0, 97])]) []
        [57, 57, 57, 57, 57, 57, 57, 57] none [⟨[1], [2]⟩] =
      .ok (.kNotFound, [⟨[1], [2]⟩]) :=
  ⟨(read_of_missing_key mapPageGroupedDB mapLSM2LIX .little 2
      [(3544385890265608240, [1, 0, 0, 0, 102, 1, 0, 0, 0, 97])]
      [([48, 48, 48, 48, 48, 48, 48, 49], [1, 0, 0, 0, 102, 1, 0, 0, 0, 97])] []
      [57, 57, 57, 57, 57, 57, 57, 57] 4123389851770370361 none [⟨[1], [2]⟩]).1
      (by decide) (by decide),
   (read_of_missing_key mapPageGroupedDB mapLSM2LIX .little 2
      [(3544385890265608240, [1, 0, 0, 0, 102, 1, 0, 0, 0, 97])]
      [([48, 48, 48, 48, 48, 48, 48, 49], [1, 0, 0, 0, 102, 1, 0, 0, 0, 97])] []
      [57, 57, 57, 57, 57, 57, 57, 57] 4123389851770370361 none [⟨[1], [2]⟩]).2
      (by decide)⟩

/-- C12 at a backend whose range call reports a failure other than "not found": `ScanSingle` of
the TreeLine adapter returns `kOK`, while `ReadSingle`, `InsertSingle` and `UpdateSingle` end in
an exception on the same backend, as do `ReadSingle` and `InsertSingle` of the LSM2LIX
adapter. -/
theorem scan_returns_kOK_on_backend_failure :
    TreeLineDB.ScanSingle failingPageGroupedDB .little 2 (.live ()) []
        [48, 48, 48, 48, 48, 48, 48, 49] 10 none [] = .ok (.kOK, []) ∧
      TreeLineDB.ScanSingle failingPageGroupedDB .little 2 (.live ()) []
        [48, 48, 48, 48, 48, 48, 48, 49] 10 (some [[102]]) [] = .ok (.kOK, []) ∧
      TreeLineDB.ReadSingle failingPageGroupedDB .little 2 (.live ()) []
        [48, 48, 48, 48, 48, 48, 48, 49] none [] = .fault .exception ∧
      TreeLineDB.InsertSingle failingPageGroupedDB .little (.live ()) []
        [48, 48, 48, 48, 48, 48, 48, 49] [⟨[102], [97]⟩] = .fault .exception ∧
      TreeLineDB.UpdateSingle failingPageGroupedDB .little (.live ()) []
        [48, 48, 48, 48, 48, 48, 48, 49] [⟨[102], [97]⟩] = .fault .exception ∧
      LSM2LIXDB.ReadSingle failingLSM2LIX .little 2 (.live ()) []
        [48, 48, 48, 48, 48, 48, 48, 49] none [] = .fault .exception ∧
      LSM2LIXDB.InsertSingle failingLSM2LIX .little (.live ()) []
        [48, 48, 48, 48, 48, 48, 48, 49] [⟨[102], [97]⟩] = .fault .exception := by
  decide

/-! ## Scans -/

namespace TreeLineDB

theorem ReadSingle_decode {σ : Type} (B : PageGroupedDB σ) (e : Endian) (fieldcount_ : Int)
    (db : σ) (table key : Bytes) (key_num : Nat) (fields : Option (List Bytes)) (data : Bytes)
    (hc : convert e key = .ok key_num) (hg : B.Get db key_num = (.ok, data)) :
    ReadSingle B e fieldcount_ (.live db) table key fields [] =
      match ReadDecode e fieldcount_ fields data with
      | .fault f => .fault f
      | .ok row => .ok (.kOK, row) := by
  cases fields with
  | none =>
    simp only [ReadSingle, hc, hg, ReadDecode]
    cases DeserializeRow e [] data with
    | fault f => simp
    | ok row => by_cases h : row.length = toSizeT fieldcount_ <;> simp [h]
  | some flt =>
    simp only [ReadSingle, hc, hg, ReadDecode]
    cases DeserializeRowFilter e [] data flt <;> simp

theorem ScanSingleLoop_rows (e : Endian) (fieldcount_ : Int) (fields : Option (List Bytes))
    (entries : List (Nat × Bytes)) (rows : List (List Field)) (result : List (List Field))
    (hd : List.Forall₂ (fun entry row => ReadDecode e fieldcount_ fields entry.2 = .ok row)
      entries rows) :
    ScanSingleLoop e fieldcount_ fields entries result = .ok (result ++ rows) := by
  induction hd generalizing result with
  | nil => simp [ScanSingleLoop]
  | @cons entry row entries rows hhead _ ih =>
    cases fields with
    | none =>
      simp only [ReadDecode] at hhead
      unfold ScanSingleLoop
      cases hdec : DeserializeRow e [] entry.2 with
      | fault f => simp [hdec] at hhead
      | ok values =>
        rw [hdec] at hhead
        by_cases hlen : values.length = toSizeT fieldcount_
        · simp only [hlen, if_true, Outcome.ok.injEq] at hhead
          subst hhead
          simp only [hdec, hlen, if_true]
          rw [ih]
          simp
        · simp [hlen] at hhead
    | some flt =>
      simp only [ReadDecode] at hhead
      unfold ScanSingleLoop
      simp only [hhead]
      rw [ih]
      simp

/-- The scan of the TreeLine adapter: when the key converts and the backend range call hands out
entries whose blobs the decode path of `ReadSingle` decodes, each to its row, `ScanSingle` called
with an empty `result` returns `kOK` with exactly these rows, in the order of the entries. -/
theorem ScanSingle_rows {σ : Type} (B : PageGroupedDB σ) (e : Endian) (fieldcount_ : Int)
    (db : σ) (table key : Bytes) (key_num : Nat) (len : Int) (fields : Option (List Bytes))
    (status : BackendStatus) (entries : List (Nat × Bytes)) (rows : List (List Field))
    (hc : convert e key = .ok key_num) (hr : B.GetRange db key_num len = (status, entries))
    (hd : List.Forall₂ (fun entry row => ReadDecode e fieldcount_ fields entry.2 = .ok row)
      entries rows) :
    ScanSingle B e fieldcount_ (.live db) table key len fields [] = .ok (.kOK, rows) := by
  simp only [ScanSingle, hc, hr, ScanSingleLoop_rows e fieldcount_ fields entries rows [] hd,
    List.nil_append]

end TreeLineDB

/-- C13 in the LSM2LIX adapter: `ScanSingle` returns `kOK` with no row for every start key,
count and filter, without a backend call; so a scan from key `00000001` right after the insert
of `[(field0, aaa), (field1, bbb)]` under that key returns `kOK` and no row, where the same
calls on the TreeLine adapter return `kOK` and the row. -/
theorem LSM2LIX_scan_returns_no_row (table key : Bytes) (len : Int)
    (fields : Option (List Bytes)) :
    LSM2LIXDB.ScanSingle table key len fields [] = .ok (.kOK, []) ∧
      LSM2LIXDB.InsertThenScan mapLSM2LIX .little (.live []) []
        [48, 48, 48, 48, 48, 48, 48, 49] 1
        [⟨[102, 105, 101, 108, 100, 48], [97, 97, 97]⟩,
         ⟨[102, 105, 101, 108, 100, 49], [98, 98, 98]⟩] = .ok (.kOK, []) ∧
      TreeLineDB.InsertThenScan mapPageGroupedDB .little 2 (.live []) []
        [48, 48, 48, 48, 48, 48, 48, 49] 1
        [⟨[102, 105, 101, 108, 100, 48], [97, 97, 97]⟩,
         ⟨[102, 105, 101, 108, 100, 49], [98, 98, 98]⟩] =
        .ok (.kOK, [[⟨[102, 105, 101, 108, 100, 48], [97, 97, 97]⟩,
         ⟨[102, 105, 101, 108, 100, 49], [98, 98, 98]⟩]]) :=
  ⟨rfl, by decide, by decide⟩

/-- C14 at `Init`, `Cleanup`, `Init`, all returning normally: after the second `Init` the
reference count is 1 but `db_` still is the pointer that `Cleanup` deleted; the backend has been
opened once and closed once, it is not opened again, and a `ReadSingle` goes through the deleted
handle.  In both adapters. -/
theorem reattach_keeps_deleted_handle :
    (TreeLineDB.Init mapPageGroupedDB ⟨"single", some 2, "/tmp/ycsb-treelinedb", "false"⟩
        ⟨some [], false⟩
        (TreeLineDB.Cleanup
          (TreeLineDB.Init mapPageGroupedDB ⟨"single", some 2, "/tmp/ycsb-treelinedb", "false"⟩
            ⟨some [], false⟩ Shared.initial).1).1 =
      (⟨.deleted, 1, 1, 1⟩, .ok 2) ∧
      TreeLineDB.ReadSingle mapPageGroupedDB .little 2 .deleted []
        [48, 48, 48, 48, 48, 48, 48, 49] none [] = .fault .danglingHandle) ∧
    (LSM2LIXDB.Init ⟨"", some 2, "", ""⟩ ⟨some ([] : MapStore Bytes), false⟩
        (LSM2LIXDB.Cleanup
          (LSM2LIXDB.Init ⟨"", some 2, "", ""⟩ ⟨some ([] : MapStore Bytes), false⟩
            Shared.initial).1).1 =
      (⟨.deleted, 1, 1, 1⟩, .ok 2) ∧
      LSM2LIXDB.ReadSingle mapLSM2LIX .little 2 .deleted []
        [48, 48, 48, 48, 48, 48, 48, 49] none [] = .fault .danglingHandle) := by
  decide

end ycsbc
